import Mathlib

/-!
# Verification of the ncas symbolic algebra engine

Shallow embedding of the expression data model, the commutative operand
container with its classification queries, numeric evaluation, distributive
expansion and the simplification engine, together with proofs of the
specification claims.

Conventions:
* `f64` values are modelled as exact rationals `ℚ`.
* The `Expression` tagged union itself is not present in the sources
  (only its uses are), so the variant set is modelled from the spec, §3/§9:
  integer literals, real literals, symbols with an optional bound value,
  n-ary commutative sums and products, and the role-asymmetric `pow`/`log`.
-/

namespace Ncas

/-- Standard comparator obtained from a linear order
(`compareOfLessAndEq` pattern). -/
def cmpStd {α : Type} [LinearOrder α] (a b : α) : Ordering :=
  if a < b then .lt else if a = b then .eq else .gt

theorem cmpStd_eq_iff {α : Type} [LinearOrder α] (a b : α) :
    cmpStd a b = .eq ↔ a = b := by
  unfold cmpStd
  rcases lt_trichotomy a b with h | h | h
  · simp [h, ne_of_lt h]
  · simp [h]
  · simp [not_lt_of_gt h, ne_of_gt h]

theorem cmpStd_swap {α : Type} [LinearOrder α] (a b : α) :
    cmpStd b a = (cmpStd a b).swap := by
  unfold cmpStd
  rcases lt_trichotomy a b with h | h | h
  · simp [h, not_lt_of_gt h, (ne_of_lt h).symm, Ordering.swap]
  · simp [h, Ordering.swap]
  · simp [h, not_lt_of_gt h, ne_of_gt h, Ordering.swap]

theorem cmpStd_lt_iff {α : Type} [LinearOrder α] (a b : α) :
    cmpStd a b = .lt ↔ a < b := by
  unfold cmpStd
  rcases lt_trichotomy a b with h | h | h
  · simp [h]
  · simp [h, lt_irrefl]
  · simp [not_lt_of_gt h, ne_of_gt h]

theorem cmpStd_lt_trans {α : Type} [LinearOrder α] {a b c : α}
    (h₁ : cmpStd a b = .lt) (h₂ : cmpStd b c = .lt) : cmpStd a c = .lt := by
  rw [cmpStd_lt_iff] at h₁ h₂ ⊢
  exact lt_trans h₁ h₂

/-- Modelled from the spec, §3 and §9: the closed tagged union of expression
variants.  The enum definition (`base/expression.rs`) is missing from the
sources; the spec's recommended closed variant set is used, with subtraction
and division desugared at construction (§4.3) so they are not variants. -/
inductive Expr : Type
  | integer : Int → Expr
  | real : ℚ → Expr
  | sym : String → Option ℚ → Expr
  | add : List Expr → Expr
  | mul : List Expr → Expr
  | pow : Expr → Expr → Expr
  | log : Expr → Expr → Expr

/-- Structural induction principle for `Expr` that exposes the list
members of the commutative variants. -/
theorem Expr.myInduction (P : Expr → Prop)
    (hint : ∀ n, P (.integer n))
    (hreal : ∀ q, P (.real q))
    (hsym : ∀ s v, P (.sym s v))
    (hadd : ∀ l, (∀ x ∈ l, P x) → P (.add l))
    (hmul : ∀ l, (∀ x ∈ l, P x) → P (.mul l))
    (hpow : ∀ a b, P a → P b → P (.pow a b))
    (hlog : ∀ a b, P a → P b → P (.log a b)) :
    ∀ e, P e := by
  intro e
  induction e using Expr.rec (motive_2 := fun l => ∀ x ∈ l, P x) with
  | integer n => exact hint n
  | real q => exact hreal q
  | sym s v => exact hsym s v
  | add l ih => exact hadd l ih
  | mul l ih => exact hmul l ih
  | pow a b iha ihb => exact hpow a b iha ihb
  | log a b iha ihb => exact hlog a b iha ihb
  | nil =>
      rename_i x hx
      exact absurd hx (List.not_mem_nil x)
  | cons y ys ihy ihys =>
      rename_i x hx
      rcases List.mem_cons.mp hx with h | h
      · exact h ▸ ihy
      · exact ihys x h

/-- Kind rank of a variant; modelled from the spec §4.1: `compare` ranks by
variant kind first using a fixed kind ordering. -/
def rank : Expr → Nat
  | .integer _ => 0
  | .real _ => 1
  | .sym _ _ => 2
  | .add _ => 3
  | .mul _ => 4
  | .pow _ _ => 5
  | .log _ _ => 6

/-- Comparator on optional bound values (field of a symbol). -/
def cmpOpt (v w : Option ℚ) : Ordering :=
  match v, w with
  | none, none => .eq
  | none, some _ => .lt
  | some _, none => .gt
  | some p, some q => cmpStd p q

mutual
/-- Modelled from the spec §4.1 (the comparator's code is not in the
sources): rank by variant kind first, then by kind-specific key —
symbol: label then bound value; commutative nodes: lexicographic
comparison of operand sequences; `pow`/`log`: argument then modifier. -/
def cmpE : Expr → Expr → Ordering
  | .integer m, .integer n => cmpStd m n
  | .real p, .real q => cmpStd p q
  | .sym a v, .sym b w => (cmpStd a b).then (cmpOpt v w)
  | .add l, .add m => cmpL l m
  | .mul l, .mul m => cmpL l m
  | .pow a b, .pow c d => (cmpE a c).then (cmpE b d)
  | .log a b, .log c d => (cmpE a c).then (cmpE b d)
  | x, y => cmpStd (rank x) (rank y)
termination_by x _ => sizeOf x

/-- Lexicographic comparison of operand lists. -/
def cmpL : List Expr → List Expr → Ordering
  | [], [] => .eq
  | [], _ :: _ => .lt
  | _ :: _, [] => .gt
  | x :: xs, y :: ys => (cmpE x y).then (cmpL xs ys)
termination_by l _ => sizeOf l
end

theorem then_eq_eq {o p : Ordering} : o.then p = .eq ↔ o = .eq ∧ p = .eq := by
  cases o <;> simp [Ordering.then]

theorem then_eq_lt {o p : Ordering} : o.then p = .lt ↔ o = .lt ∨ (o = .eq ∧ p = .lt) := by
  cases o <;> simp [Ordering.then]

theorem then_swap (o p : Ordering) : (o.then p).swap = o.swap.then p.swap := by
  cases o <;> cases p <;> rfl

theorem cmpOpt_eq_iff (v w : Option ℚ) : cmpOpt v w = .eq ↔ v = w := by
  cases v <;> cases w <;> simp [cmpOpt, cmpStd_eq_iff]

theorem cmpOpt_swap (v w : Option ℚ) : cmpOpt w v = (cmpOpt v w).swap := by
  cases v <;> cases w
  · rfl
  · rfl
  · rfl
  · exact cmpStd_swap _ _

theorem cmpOpt_lt_trans {u v w : Option ℚ} (h₁ : cmpOpt u v = .lt)
    (h₂ : cmpOpt v w = .lt) : cmpOpt u w = .lt := by
  cases u <;> cases v <;> cases w <;>
    simp_all [cmpOpt, cmpStd_lt_iff] <;> exact lt_trans h₁ h₂

/-- On distinct kinds the comparator is the kind-rank comparison. -/
theorem cmpE_cross (x y : Expr) (h : rank x ≠ rank y) :
    cmpE x y = cmpStd (rank x) (rank y) := by
  cases x <;> cases y <;> first
    | exact absurd rfl h
    | simp [cmpE]

theorem cmpL_eq_iff (l : List Expr)
    (hl : ∀ x ∈ l, ∀ y, cmpE x y = .eq ↔ x = y) :
    ∀ m, cmpL l m = .eq ↔ l = m := by
  induction l with
  | nil => intro m; cases m <;> simp [cmpL]
  | cons x xs ih =>
      intro m
      cases m with
      | nil => simp [cmpL]
      | cons y ys =>
          have hx := hl x (List.mem_cons_self x xs) y
          have hxs := ih (fun a ha => hl a (List.mem_cons_of_mem x ha))
          simp [cmpL, then_eq_eq, hx, hxs ys]

theorem cmpE_eq_iff : ∀ x y, cmpE x y = .eq ↔ x = y := by
  intro x
  induction x using Expr.myInduction with
  | hint n =>
      intro y; cases y <;> simp [cmpE, cmpStd_eq_iff, rank]
  | hreal q =>
      intro y; cases y <;> simp [cmpE, cmpStd_eq_iff, rank]
  | hsym s v =>
      intro y; cases y <;>
        simp [cmpE, cmpStd_eq_iff, rank, then_eq_eq, cmpOpt_eq_iff]
  | hadd l ih =>
      intro y; cases y <;>
        simp [cmpE, cmpL_eq_iff l ih, rank, cmpStd_eq_iff]
  | hmul l ih =>
      intro y; cases y <;>
        simp [cmpE, cmpL_eq_iff l ih, rank, cmpStd_eq_iff]
  | hpow a b iha ihb =>
      intro y; cases y <;>
        simp [cmpE, rank, cmpStd_eq_iff, then_eq_eq, iha, ihb]
  | hlog a b iha ihb =>
      intro y; cases y <;>
        simp [cmpE, rank, cmpStd_eq_iff, then_eq_eq, iha, ihb]

theorem cmpE_refl (x : Expr) : cmpE x x = .eq := (cmpE_eq_iff x x).mpr rfl

theorem cmpL_refl (l : List Expr) : cmpL l l = .eq := by
  induction l with
  | nil => simp [cmpL]
  | cons x xs ih => simp [cmpL, then_eq_eq, cmpE_refl, ih]

theorem cmpL_swap (l : List Expr)
    (hl : ∀ x ∈ l, ∀ y, cmpE y x = (cmpE x y).swap) :
    ∀ m, cmpL m l = (cmpL l m).swap := by
  induction l with
  | nil => intro m; cases m <;> simp [cmpL, Ordering.swap]
  | cons x xs ih =>
      intro m
      cases m with
      | nil => simp [cmpL, Ordering.swap]
      | cons y ys =>
          have hx := hl x (List.mem_cons_self x xs) y
          have hxs := ih (fun a ha => hl a (List.mem_cons_of_mem x ha)) ys
          simp only [cmpL, then_swap, hx, hxs]

theorem cmpE_swap : ∀ x y, cmpE y x = (cmpE x y).swap := by
  intro x
  induction x using Expr.myInduction with
  | hint n =>
      intro y; cases y <;> simp only [cmpE] <;> exact cmpStd_swap _ _
  | hreal q =>
      intro y; cases y <;> simp only [cmpE] <;> exact cmpStd_swap _ _
  | hsym s v =>
      intro y; cases y <;> simp only [cmpE] <;>
        first
          | exact cmpStd_swap _ _
          | rw [then_swap, ← cmpStd_swap, ← cmpOpt_swap]
  | hadd l ih =>
      intro y; cases y <;> simp only [cmpE] <;>
        first
          | exact cmpStd_swap _ _
          | exact cmpL_swap l ih _
  | hmul l ih =>
      intro y; cases y <;> simp only [cmpE] <;>
        first
          | exact cmpStd_swap _ _
          | exact cmpL_swap l ih _
  | hpow a b iha ihb =>
      intro y; cases y <;> simp only [cmpE] <;>
        first
          | exact cmpStd_swap _ _
          | (rename_i c d; rw [then_swap, ← iha c, ← ihb d])
  | hlog a b iha ihb =>
      intro y; cases y <;> simp only [cmpE] <;>
        first
          | exact cmpStd_swap _ _
          | (rename_i c d; rw [then_swap, ← iha c, ← ihb d])

theorem rank_eq0 {x : Expr} (h : rank x = 0) : ∃ n, x = .integer n := by
  cases x <;> simp_all [rank]

theorem rank_eq1 {x : Expr} (h : rank x = 1) : ∃ q, x = .real q := by
  cases x <;> simp_all [rank]

theorem rank_eq2 {x : Expr} (h : rank x = 2) : ∃ s v, x = .sym s v := by
  cases x <;> simp_all [rank]

theorem rank_eq3 {x : Expr} (h : rank x = 3) : ∃ l, x = .add l := by
  cases x <;> simp_all [rank]

theorem rank_eq4 {x : Expr} (h : rank x = 4) : ∃ l, x = .mul l := by
  cases x <;> simp_all [rank]

theorem rank_eq5 {x : Expr} (h : rank x = 5) : ∃ a b, x = .pow a b := by
  cases x <;> simp_all [rank]

theorem rank_eq6 {x : Expr} (h : rank x = 6) : ∃ a b, x = .log a b := by
  cases x <;> simp_all [rank]

theorem then_lt_trans_mid {A B : Type}
    {c : A → A → Ordering} {d : B → B → Ordering}
    {a₁ a₂ a₃ : A} {b₁ b₂ b₃ : B}
    (ceq₁₂ : c a₁ a₂ = .eq → a₁ = a₂)
    (ceq₂₃ : c a₂ a₃ = .eq → a₂ = a₃)
    (crefl : ∀ a, c a a = .eq)
    (ctr : c a₁ a₂ = .lt → c a₂ a₃ = .lt → c a₁ a₃ = .lt)
    (dtr : d b₁ b₂ = .lt → d b₂ b₃ = .lt → d b₁ b₃ = .lt)
    (h₁ : (c a₁ a₂).then (d b₁ b₂) = .lt)
    (h₂ : (c a₂ a₃).then (d b₂ b₃) = .lt) :
    (c a₁ a₃).then (d b₁ b₃) = .lt := by
  rcases then_eq_lt.mp h₁ with h | ⟨he, hd⟩
  · rcases then_eq_lt.mp h₂ with h' | ⟨he', _⟩
    · exact then_eq_lt.mpr (Or.inl (ctr h h'))
    · have := ceq₂₃ he'
      rw [← this]
      exact then_eq_lt.mpr (Or.inl h)
  · have ha : a₁ = a₂ := ceq₁₂ he
    rcases then_eq_lt.mp h₂ with h' | ⟨he', hd'⟩
    · rw [ha]
      exact then_eq_lt.mpr (Or.inl h')
    · have hb : a₂ = a₃ := ceq₂₃ he'
      rw [ha, hb]
      exact then_eq_lt.mpr (Or.inr ⟨crefl _, dtr hd hd'⟩)

theorem cmpL_lt_trans (l₂ : List Expr)
    (hl : ∀ m ∈ l₂, ∀ x z, cmpE x m = .lt → cmpE m z = .lt → cmpE x z = .lt) :
    ∀ l₁ l₃, cmpL l₁ l₂ = .lt → cmpL l₂ l₃ = .lt → cmpL l₁ l₃ = .lt := by
  induction l₂ with
  | nil =>
      intro l₁ l₃ h₁ _
      cases l₁ <;> simp [cmpL] at h₁
  | cons m ms ih =>
      intro l₁ l₃ h₁ h₂
      cases l₃ with
      | nil => simp [cmpL] at h₂
      | cons c cs =>
          cases l₁ with
          | nil => simp [cmpL]
          | cons a as =>
              simp only [cmpL] at h₁ h₂ ⊢
              exact then_lt_trans_mid
                (fun h => (cmpE_eq_iff a m).mp h)
                (fun h => (cmpE_eq_iff m c).mp h)
                cmpE_refl
                (hl m (List.mem_cons_self m ms) a c)
                (ih (fun b hb => hl b (List.mem_cons_of_mem m hb)) as cs)
                h₁ h₂

theorem cmpE_lt_trans_aux (x y z : Expr)
    (hxy : cmpE x y = .lt) (hyz : cmpE y z = .lt)
    (hsame : rank x = rank y → rank y = rank z → cmpE x z = .lt) :
    cmpE x z = .lt := by
  by_cases h1 : rank x = rank y
  · by_cases h2 : rank y = rank z
    · exact hsame h1 h2
    · have hlt : rank y < rank z := by
        rw [cmpE_cross y z h2, cmpStd_lt_iff] at hyz
        exact hyz
      have hne : rank x ≠ rank z := by omega
      rw [cmpE_cross x z hne, cmpStd_lt_iff]
      omega
  · have hlt1 : rank x < rank y := by
      rw [cmpE_cross x y h1, cmpStd_lt_iff] at hxy
      exact hxy
    by_cases h2 : rank y = rank z
    · have hne : rank x ≠ rank z := by omega
      rw [cmpE_cross x z hne, cmpStd_lt_iff]
      omega
    · have hlt2 : rank y < rank z := by
        rw [cmpE_cross y z h2, cmpStd_lt_iff] at hyz
        exact hyz
      have hne : rank x ≠ rank z := by omega
      rw [cmpE_cross x z hne, cmpStd_lt_iff]
      omega

theorem cmpE_lt_trans : ∀ y x z, cmpE x y = .lt → cmpE y z = .lt → cmpE x z = .lt := by
  intro y
  induction y using Expr.myInduction with
  | hint n =>
      intro x z hxy hyz
      refine cmpE_lt_trans_aux x _ z hxy hyz (fun h1 h2 => ?_)
      obtain ⟨a, rfl⟩ := rank_eq0 (by simpa [rank] using h1)
      obtain ⟨c, rfl⟩ := rank_eq0 (by simpa [rank] using h2.symm)
      simp only [cmpE] at hxy hyz ⊢
      exact cmpStd_lt_trans hxy hyz
  | hreal q =>
      intro x z hxy hyz
      refine cmpE_lt_trans_aux x _ z hxy hyz (fun h1 h2 => ?_)
      obtain ⟨a, rfl⟩ := rank_eq1 (by simpa [rank] using h1)
      obtain ⟨c, rfl⟩ := rank_eq1 (by simpa [rank] using h2.symm)
      simp only [cmpE] at hxy hyz ⊢
      exact cmpStd_lt_trans hxy hyz
  | hsym s v =>
      intro x z hxy hyz
      refine cmpE_lt_trans_aux x _ z hxy hyz (fun h1 h2 => ?_)
      obtain ⟨a, u, rfl⟩ := rank_eq2 (by simpa [rank] using h1)
      obtain ⟨b, w, rfl⟩ := rank_eq2 (by simpa [rank] using h2.symm)
      simp only [cmpE] at hxy hyz ⊢
      exact then_lt_trans_mid
        (fun h => (cmpStd_eq_iff a s).mp h)
        (fun h => (cmpStd_eq_iff s b).mp h)
        (fun a => (cmpStd_eq_iff a a).mpr rfl)
        cmpStd_lt_trans cmpOpt_lt_trans hxy hyz
  | hadd l ih =>
      intro x z hxy hyz
      refine cmpE_lt_trans_aux x _ z hxy hyz (fun h1 h2 => ?_)
      obtain ⟨m, rfl⟩ := rank_eq3 (by simpa [rank] using h1)
      obtain ⟨k, rfl⟩ := rank_eq3 (by simpa [rank] using h2.symm)
      simp only [cmpE] at hxy hyz ⊢
      exact cmpL_lt_trans l (fun b hb => ih b hb) m k hxy hyz
  | hmul l ih =>
      intro x z hxy hyz
      refine cmpE_lt_trans_aux x _ z hxy hyz (fun h1 h2 => ?_)
      obtain ⟨m, rfl⟩ := rank_eq4 (by simpa [rank] using h1)
      obtain ⟨k, rfl⟩ := rank_eq4 (by simpa [rank] using h2.symm)
      simp only [cmpE] at hxy hyz ⊢
      exact cmpL_lt_trans l (fun b hb => ih b hb) m k hxy hyz
  | hpow a b iha ihb =>
      intro x z hxy hyz
      refine cmpE_lt_trans_aux x _ z hxy hyz (fun h1 h2 => ?_)
      obtain ⟨p, q, rfl⟩ := rank_eq5 (by simpa [rank] using h1)
      obtain ⟨r, t, rfl⟩ := rank_eq5 (by simpa [rank] using h2.symm)
      simp only [cmpE] at hxy hyz ⊢
      exact then_lt_trans_mid
        (fun h => (cmpE_eq_iff p a).mp h)
        (fun h => (cmpE_eq_iff a r).mp h)
        cmpE_refl (iha p r) (ihb q t) hxy hyz
  | hlog a b iha ihb =>
      intro x z hxy hyz
      refine cmpE_lt_trans_aux x _ z hxy hyz (fun h1 h2 => ?_)
      obtain ⟨p, q, rfl⟩ := rank_eq6 (by simpa [rank] using h1)
      obtain ⟨r, t, rfl⟩ := rank_eq6 (by simpa [rank] using h2.symm)
      simp only [cmpE] at hxy hyz ⊢
      exact then_lt_trans_mid
        (fun h => (cmpE_eq_iff p a).mp h)
        (fun h => (cmpE_eq_iff a r).mp h)
        cmpE_refl (iha p r) (ihb q t) hxy hyz

instance : DecidableEq Expr := fun x y =>
  decidable_of_iff (cmpE x y = .eq) (cmpE_eq_iff x y)

/-- The canonical total order on expressions, from the comparator. -/
def leE (x y : Expr) : Prop := cmpE x y ≠ .gt

instance : DecidableRel leE := fun x y => by
  unfold leE; infer_instance

theorem leE_iff (x y : Expr) : leE x y ↔ cmpE x y = .lt ∨ x = y := by
  unfold leE
  constructor
  · intro h
    rcases hc : cmpE x y with _ | _ | _
    · exact Or.inl rfl
    · exact Or.inr ((cmpE_eq_iff x y).mp hc)
    · exact absurd hc h
  · intro h hgt
    rcases h with h | rfl
    · rw [h] at hgt; cases hgt
    · rw [cmpE_refl] at hgt; cases hgt

instance : IsTotal Expr leE := by
  constructor
  intro x y
  unfold leE
  rw [cmpE_swap x y]
  rcases cmpE x y with _ | _ | _ <;> simp [Ordering.swap]

instance : IsTrans Expr leE := by
  constructor
  intro x y z hxy hyz
  rcases (leE_iff x y).mp hxy with h | rfl
  · rcases (leE_iff y z).mp hyz with h' | rfl
    · exact (leE_iff x z).mpr (Or.inl (cmpE_lt_trans y x z h h'))
    · exact hxy
  · exact hyz

instance : IsAntisymm Expr leE := by
  constructor
  intro x y hxy hyx
  rcases (leE_iff x y).mp hxy with h | rfl
  · rcases (leE_iff y x).mp hyx with h' | rfl
    · have := cmpE_swap x y
      rw [h, h'] at this
      cases this
    · rfl
  · rfl

instance : IsRefl Expr leE := by
  constructor
  intro x
  exact (leE_iff x x).mpr (Or.inr rfl)

/-- Canonical sorting of an operand list by the total order (the sources
obtain this order as `BinaryHeap::into_sorted_vec`; modelled as an
explicit sort by the comparator). -/
def sortE (l : List Expr) : List Expr := l.insertionSort leE

theorem sortE_perm (l : List Expr) : List.Perm (sortE l) l :=
  List.perm_insertionSort leE l

theorem sortE_sorted (l : List Expr) : List.Sorted leE (sortE l) :=
  List.sorted_insertionSort leE l

/-- Sorting is invariant under permutation of the input. -/
theorem sortE_eq_of_perm {l₁ l₂ : List Expr} (h : List.Perm l₁ l₂) :
    sortE l₁ = sortE l₂ :=
  List.eq_of_perm_of_sorted
    ((sortE_perm l₁).trans (h.trans (sortE_perm l₂).symm))
    (sortE_sorted l₁) (sortE_sorted l₂)

/-- The commutative operand container (`base/commutative_association.rs`):
operands of an n-ary commutative operator, kept in canonical order.  The
Rust code stores a `BinaryHeap` and reads it back with `into_sorted_vec`;
the model stores the sorted list directly. -/
structure CommutativeAssociation : Type where
  ops : List Expr

/-- `CommutativeAssociation::new` (commutative_association.rs line 18):
collects the given operands into the canonically ordered container. -/
def CommutativeAssociation.new (items : List Expr) : CommutativeAssociation :=
  ⟨sortE items⟩

/-- `items()` (line 27): the canonically ordered operand sequence. -/
def CommutativeAssociation.items (c : CommutativeAssociation) : List Expr :=
  c.ops

/-- The `Hash` impl (lines 33-39) feeds every item, in `items()` order, to
the hasher state; modelled as a fold of an arbitrary hasher step over the
canonical sequence. -/
def CommutativeAssociation.hashFold {σ : Type} (step : σ → Expr → σ)
    (init : σ) (c : CommutativeAssociation) : σ :=
  c.items.foldl step init

/-- Is the expression an integer literal. -/
def isIntLit : Expr → Bool
  | .integer _ => true
  | _ => false

/-- Is the expression a real (floating-point) literal. -/
def isRealLit : Expr → Bool
  | .real _ => true
  | _ => false

/-- Is the expression a power with integer argument and integer modifier. -/
def isIntPowInt : Expr → Bool
  | .pow a b => isIntLit a && isIntLit b
  | _ => false

/-- Base of a power node (the `power.argument()` projection used by
`get_rational_denominators`); identity on other shapes. -/
def powBase : Expr → Expr
  | .pow a _ => a
  | x => x

/-- `get_reals` (lines 60-69): operands that are real literals. -/
def CommutativeAssociation.get_reals (c : CommutativeAssociation) : List Expr :=
  c.items.filter isRealLit

/-- `get_rational_numerators` (lines 75-84): operands that are integer
literals. -/
def CommutativeAssociation.get_rational_numerators
    (c : CommutativeAssociation) : List Expr :=
  c.items.filter isIntLit

/-- `get_rational_denominators` (lines 90-106): filter the operands of
shape integer-base-to-integer-exponent, then map each to its base; the
`panic!` arm of the map is modelled as `Except.error`. -/
def CommutativeAssociation.get_rational_denominators
    (c : CommutativeAssociation) : Except Unit (List Expr) :=
  (c.items.filter isIntPowInt).mapM fun f =>
    match f with
    | .pow a _ => Except.ok a
    | _ => Except.error ()

/-- The filter used by `get_rationals` (lines 111-131).  The nested
`Multiplication` arm compares the operand count of the nested container
with the counts of its rational numerators and denominators. -/
def ratFilter : Expr → Bool
  | .integer _ => true
  | .pow a b => isIntLit a && isIntLit b
  | .mul factors =>
      factors.length ==
        (factors.filter isIntLit).length + (factors.filter isIntPowInt).length
  | _ => false

/-- The filter used by `get_non_rationals` (lines 136-156). -/
def nonRatFilter : Expr → Bool
  | .integer _ => false
  | .pow a b => !(isIntLit a && isIntLit b)
  | .mul factors =>
      !(factors.length ==
        (factors.filter isIntLit).length + (factors.filter isIntPowInt).length)
  | _ => true

/-- `get_rationals` (lines 111-131). -/
def CommutativeAssociation.get_rationals
    (c : CommutativeAssociation) : List Expr :=
  c.items.filter ratFilter

/-- `get_non_rationals` (lines 136-156). -/
def CommutativeAssociation.get_non_rationals
    (c : CommutativeAssociation) : List Expr :=
  c.items.filter nonRatFilter

/-- The predicate stated by the spec for `rationals()`: integer literal, or
integer-base-to-integer-exponent power, or a nested product whose every
operand is classified as a numerator (integer literal) or a denominator
(integer-to-integer power) by that same logic. -/
def claimRationalPred : Expr → Bool
  | .integer _ => true
  | .pow a b => isIntLit a && isIntLit b
  | .mul factors => factors.all fun y => isIntLit y || isIntPowInt y
  | _ => false

theorem isIntLit_not_isIntPowInt {x : Expr} (h : isIntLit x = true) :
    isIntPowInt x = false := by
  cases x <;> simp_all [isIntLit, isIntPowInt]

theorem filter_sum_length_le (ys : List Expr) :
    (ys.filter isIntLit).length + (ys.filter isIntPowInt).length ≤ ys.length := by
  induction ys with
  | nil => simp
  | cons z zs ih =>
      rcases h1 : isIntLit z with _ | _
      · rcases h2 : isIntPowInt z with _ | _ <;>
          simp [List.filter_cons, h1, h2] <;> omega
      · have h2 := isIntLit_not_isIntPowInt h1
        simp [List.filter_cons, h1, h2]
        omega

theorem length_eq_filter_sum_iff (fs : List Expr) :
    (fs.length =
      (fs.filter isIntLit).length + (fs.filter isIntPowInt).length) ↔
    (∀ y ∈ fs, isIntLit y = true ∨ isIntPowInt y = true) := by
  induction fs with
  | nil => simp
  | cons y ys ih =>
      rcases h1 : isIntLit y with _ | _
      · rcases h2 : isIntPowInt y with _ | _
        · have hAB := filter_sum_length_le ys
          simp [List.filter_cons, h1, h2]
          omega
        · simp [List.filter_cons, h1, h2]
          constructor
          · intro h
            exact ih.mp (by omega)
          · intro h
            have := ih.mpr h
            omega
      · have h2 := isIntLit_not_isIntPowInt h1
        simp [List.filter_cons, h1, h2]
        constructor
        · intro h
          exact ih.mp (by omega)
        · intro h
          have := ih.mpr h
          omega

theorem ratFilter_eq_claim (x : Expr) : ratFilter x = claimRationalPred x := by
  cases x <;> try rfl
  rename_i factors
  rw [Bool.eq_iff_iff]
  simp only [ratFilter, claimRationalPred, beq_iff_eq, List.all_eq_true,
    Bool.or_eq_true]
  exact length_eq_filter_sum_iff factors

theorem nonRatFilter_eq_not_rat (x : Expr) : nonRatFilter x = !ratFilter x := by
  cases x <;> simp [ratFilter, nonRatFilter]

theorem count_filter_split (p : Expr → Bool) (l : List Expr) (x : Expr) :
    (l.filter p).count x + (l.filter fun y => !p y).count x = l.count x := by
  induction l with
  | nil => simp
  | cons y ys ih =>
      rcases h : p y with _ | _ <;>
        rcases hxy : decide (y = x) with _ | _ <;>
          simp [List.filter_cons, h, List.count_cons, hxy, of_decide_eq_true,
            of_decide_eq_false] <;> omega

/-- C1: constructing a `CommutativeAssociation` from any permutation of a
finite multiset of operands yields equal containers; in particular
`items()` returns the same canonically ordered sequence for every
permutation, and the structural hash (a fold of any hasher step over the
canonical sequence) is the same for both constructions. -/
theorem C1_commutative_construction_permutation_invariant
    (l₁ l₂ : List Expr) (h : List.Perm l₁ l₂) :
    CommutativeAssociation.new l₁ = CommutativeAssociation.new l₂ ∧
    (CommutativeAssociation.new l₁).items =
      (CommutativeAssociation.new l₂).items ∧
    ∀ (σ : Type) (step : σ → Expr → σ) (init : σ),
      (CommutativeAssociation.new l₁).hashFold step init =
        (CommutativeAssociation.new l₂).hashFold step init := by
  have hs : sortE l₁ = sortE l₂ := sortE_eq_of_perm h
  refine ⟨?_, ?_, ?_⟩
  · unfold CommutativeAssociation.new
    rw [hs]
  · unfold CommutativeAssociation.new CommutativeAssociation.items
    exact hs
  · intro σ step init
    unfold CommutativeAssociation.hashFold CommutativeAssociation.new
      CommutativeAssociation.items
    rw [hs]

/-- Witness for C1 at a concrete permutation of two symbols and an
integer literal. -/
theorem C1_witness :
    CommutativeAssociation.new
        [Expr.sym "b" none, Expr.sym "a" none, Expr.integer 2] =
      CommutativeAssociation.new
        [Expr.sym "a" none, Expr.sym "b" none, Expr.integer 2] :=
  (C1_commutative_construction_permutation_invariant _ _
    (List.Perm.swap _ _ _)).1

/-- C5: `get_rationals` returns exactly the operands satisfying the
spec's predicate (integer literal, or integer-to-integer power, or a
nested product all of whose operands are numerators or denominators by
the same logic), `get_non_rationals` returns exactly the complement, and
every operand lands in exactly one of the two results (counted with
multiplicity). -/
theorem C5_rationals_partition (l : List Expr) :
    (CommutativeAssociation.new l).get_rationals =
      (CommutativeAssociation.new l).items.filter claimRationalPred ∧
    (CommutativeAssociation.new l).get_non_rationals =
      (CommutativeAssociation.new l).items.filter
        (fun x => !claimRationalPred x) ∧
    ∀ x : Expr,
      ((CommutativeAssociation.new l).get_rationals.count x) +
        ((CommutativeAssociation.new l).get_non_rationals.count x) =
      (CommutativeAssociation.new l).items.count x := by
  have hkey : ∀ x, nonRatFilter x = !ratFilter x := nonRatFilter_eq_not_rat
  refine ⟨?_, ?_, ?_⟩
  · unfold CommutativeAssociation.get_rationals
    exact List.filter_congr fun x _ => ratFilter_eq_claim x
  · unfold CommutativeAssociation.get_non_rationals
    exact List.filter_congr fun x _ => by rw [hkey, ratFilter_eq_claim]
  · intro x
    unfold CommutativeAssociation.get_rationals
      CommutativeAssociation.get_non_rationals
    have := count_filter_split ratFilter (CommutativeAssociation.new l).items x
    rw [List.filter_congr fun y _ => (hkey y)]
    exact this

/-- C10: `get_rational_denominators` never reaches its `panic!` arm: for
every operand list the result is `ok`, namely the bases of exactly the
operands of shape integer-base-to-integer-exponent. -/
theorem C10_rational_denominators_no_panic (l : List Expr) :
    (CommutativeAssociation.new l).get_rational_denominators =
      Except.ok
        (((CommutativeAssociation.new l).items.filter isIntPowInt).map
          powBase) := by
  unfold CommutativeAssociation.get_rational_denominators
  have hmem : ∀ x ∈ (CommutativeAssociation.new l).items.filter isIntPowInt,
      isIntPowInt x = true :=
    fun x hx => List.of_mem_filter hx
  generalize (CommutativeAssociation.new l).items.filter isIntPowInt = m at hmem
  induction m with
  | nil => rfl
  | cons y ys ih =>
      have hy := hmem y (List.mem_cons_self y ys)
      obtain ⟨a, b, hab⟩ : ∃ a b, y = Expr.pow a b := by
        cases y <;> simp_all [isIntPowInt]
      subst hab
      rw [List.mapM_cons]
      simp only [List.map_cons, powBase]
      rw [ih (fun x hx => hmem x (List.mem_cons_of_mem _ hx))]
      rfl

/-- Splice a multiplication operand into its factors (one level); other
shapes stay atomic.  Nested products are flattened at construction — this
is how `(3/7)/7` ends up as the flat product `3 * 7⁻¹ * 7⁻¹` classified
as rational by the container tests. -/
def splice (x : Expr) : List Expr :=
  match x with
  | .mul fs => fs
  | _ => [x]

/-- One-level flattening of multiplication operands. -/
def flattenOps (l : List Expr) : List Expr := l.flatMap splice

/-- Modelled from the spec §4.3/§6: `Expression::addition` stores the
addends canonically ordered (the constructor code is not in the sources). -/
def Expr.addition (l : List Expr) : Expr := .add (sortE l)

/-- Modelled from the spec §4.3/§6 and the container tests:
`Expression::multiplication` flattens nested products one level and
stores the factors canonically ordered. -/
def Expr.multiplication (l : List Expr) : Expr := .mul (sortE (flattenOps l))

/-- Subtraction is surface syntax only (spec §4.3): `a − b` desugars at
construction to `a + (−1)·b`. -/
def Expr.subtraction (a b : Expr) : Expr :=
  Expr.addition [a, Expr.multiplication [.integer (-1), b]]

/-- Division is surface syntax only (spec §4.3): `a / b` desugars at
construction to `a · b⁻¹`. -/
def Expr.division (a b : Expr) : Expr :=
  Expr.multiplication [a, .pow b (.integer (-1))]

/-- Power applied to rationals; `f64::powf` is modelled exactly on
integer exponents (the only case the spec's rules exercise); fractional
exponents have no exact rational value and are mapped to 0. -/
def qpow (b e : ℚ) : ℚ := if e.den = 1 then b ^ e.num else 0

/-- Two-argument logarithm on rationals; the real-valued logarithm has no
exact rational counterpart, no claim exercises it numerically. -/
def qlog (_ _ : ℚ) : ℚ := 0

/-- Is an evaluation result an error (the `res.is_err()` test of
numeric_evaluation.rs lines 75-79). -/
def isErrB (r : Except Expr ℚ) : Bool :=
  match r with
  | .error _ => true
  | .ok _ => false

/-- Unwrap an ok result (`res.unwrap()`, only reached when no error was
found). -/
def okValue (r : Except Expr ℚ) : ℚ :=
  match r with
  | .ok v => v
  | .error _ => 0

/-- The fold shared by the `Addition` and `Multiplication` impls of
`NumericEvaluable` (numeric_evaluation.rs lines 67-109): return the first
error among the operand results in order, otherwise fold the unwrapped
values from the operator's identity. -/
def exCombine (init : ℚ) (op : ℚ → ℚ → ℚ)
    (rs : List (Except Expr ℚ)) : Except Expr ℚ :=
  match rs.find? isErrB with
  | some e => e
  | none => .ok ((rs.map okValue).foldl op init)

mutual
/-- `into_num` (numeric_evaluation.rs): numeric evaluation to a scalar or
the first unresolved sub-expression.  A bound symbol yields its value; an
unbound symbol fails carrying itself; sums and products fold their
operand results in canonical order; `pow`/`log` evaluate argument then
modifier, left failure first. -/
def intoNum : Expr → Except Expr ℚ
  | .integer n => .ok (n : ℚ)
  | .real q => .ok q
  | .sym s v =>
      match v with
      | some q => .ok q
      | none => .error (.sym s none)
  | .add l => exCombine 0 (· + ·) (intoNumList l)
  | .mul l => exCombine 1 (· * ·) (intoNumList l)
  | .pow a b =>
      match intoNum a, intoNum b with
      | .ok p, .ok q => .ok (qpow p q)
      | .error e, _ => .error e
      | .ok _, .error e => .error e
  | .log a b =>
      match intoNum a, intoNum b with
      | .ok p, .ok q => .ok (qlog p q)
      | .error e, _ => .error e
      | .ok _, .error e => .error e
termination_by e => sizeOf e

/-- Evaluation results of every operand, in order (the `results` vector of
numeric_evaluation.rs lines 68-73). -/
def intoNumList : List Expr → List (Except Expr ℚ)
  | [] => []
  | x :: xs => intoNum x :: intoNumList xs
termination_by l => sizeOf l
end

theorem intoNumList_eq_map (l : List Expr) : intoNumList l = l.map intoNum := by
  induction l with
  | nil => simp [intoNumList]
  | cons x xs ih => simp [intoNumList, ih]

/-- The scalar value of an expression that evaluates successfully. -/
def valNum (x : Expr) : ℚ := okValue (intoNum x)

theorem exCombine_all_ok (init : ℚ) (op : ℚ → ℚ → ℚ)
    (rs : List (Except Expr ℚ)) (h : ∀ r ∈ rs, isErrB r = false) :
    exCombine init op rs = .ok ((rs.map okValue).foldl op init) := by
  unfold exCombine
  rw [List.find?_eq_none.mpr fun r hr => by simp [h r hr]]

theorem exCombine_first_err (init : ℚ) (op : ℚ → ℚ → ℚ)
    (rs₁ rs₂ : List (Except Expr ℚ)) (err : Expr)
    (h₁ : ∀ r ∈ rs₁, isErrB r = false) :
    exCombine init op (rs₁ ++ .error err :: rs₂) = .error err := by
  unfold exCombine
  rw [List.find?_append, List.find?_eq_none.mpr fun r hr => by simp [h₁ r hr]]
  simp [isErrB]

theorem intoNum_error_unbound_symbol :
    ∀ e err, intoNum e = .error err → ∃ s, err = Expr.sym s none := by
  intro e
  induction e using Expr.myInduction with
  | hint n => intro err h; simp [intoNum] at h
  | hreal q => intro err h; simp [intoNum] at h
  | hsym s v =>
      intro err h
      cases v <;> simp [intoNum] at h
      exact ⟨s, h.symm⟩
  | hadd l ih =>
      intro err h
      simp only [intoNum, exCombine] at h
      rcases hf : (intoNumList l).find? isErrB with _ | e
      · rw [hf] at h; simp at h
      · rw [hf] at h
        have hmem := List.mem_of_find?_eq_some hf
        rw [intoNumList_eq_map] at hmem
        obtain ⟨x, hx, hxe⟩ := List.mem_map.mp hmem
        cases h
        exact ih x hx err hxe
  | hmul l ih =>
      intro err h
      simp only [intoNum, exCombine] at h
      rcases hf : (intoNumList l).find? isErrB with _ | e
      · rw [hf] at h; simp at h
      · rw [hf] at h
        have hmem := List.mem_of_find?_eq_some hf
        rw [intoNumList_eq_map] at hmem
        obtain ⟨x, hx, hxe⟩ := List.mem_map.mp hmem
        cases h
        exact ih x hx err hxe
  | hpow a b iha ihb =>
      intro err h
      simp only [intoNum] at h
      rcases ha : intoNum a with ea | va <;> rcases hb : intoNum b with eb | vb <;>
        rw [ha, hb] at h <;> simp at h
      · exact iha err (h ▸ ha)
      · exact iha err (h ▸ ha)
      · exact ihb err (h ▸ hb)
  | hlog a b iha ihb =>
      intro err h
      simp only [intoNum] at h
      rcases ha : intoNum a with ea | va <;> rcases hb : intoNum b with eb | vb <;>
        rw [ha, hb] at h <;> simp at h
      · exact iha err (h ▸ ha)
      · exact iha err (h ▸ ha)
      · exact ihb err (h ▸ hb)

/-- C6: numeric evaluation of a sum (resp. product) returns the error of
the first operand in canonical order that fails, the error always carries
an unbound symbol itself (propagated unchanged, not a generic message);
when every operand resolves it returns `ok` of the fold starting at the
identity 0 combined by addition (resp. 1 and multiplication); and
concretely `into_num(Variable "x" + Number 1)` is `Err(Variable "x")`. -/
theorem C6_evaluation_first_failure_propagation :
    (∀ e err, intoNum e = .error err → ∃ s, err = Expr.sym s none) ∧
    (∀ (l₁ : List Expr) (x : Expr) (l₂ : List Expr) (err : Expr),
      (∀ y ∈ l₁, isErrB (intoNum y) = false) → intoNum x = .error err →
      intoNum (.add (l₁ ++ x :: l₂)) = .error err ∧
      intoNum (.mul (l₁ ++ x :: l₂)) = .error err) ∧
    (∀ l : List Expr, (∀ y ∈ l, isErrB (intoNum y) = false) →
      intoNum (.add l) = .ok ((l.map valNum).sum) ∧
      intoNum (.mul l) = .ok ((l.map valNum).prod)) ∧
    intoNum (Expr.addition [Expr.sym "x" none, Expr.real 1]) =
      .error (Expr.sym "x" none) := by
  have hsplit : ∀ (l₁ : List Expr) (x : Expr) (l₂ : List Expr),
      intoNumList (l₁ ++ x :: l₂) =
        (l₁.map intoNum) ++ intoNum x :: (l₂.map intoNum) := by
    intro l₁ x l₂
    rw [intoNumList_eq_map]
    simp
  refine ⟨intoNum_error_unbound_symbol, ?_, ?_, ?_⟩
  · intro l₁ x l₂ err h₁ hx
    have hok : ∀ r ∈ l₁.map intoNum, isErrB r = false := by
      intro r hr
      obtain ⟨y, hy, rfl⟩ := List.mem_map.mp hr
      exact h₁ y hy
    constructor
    · simp only [intoNum, hsplit, hx]
      exact exCombine_first_err 0 _ _ _ err hok
    · simp only [intoNum, hsplit, hx]
      exact exCombine_first_err 1 _ _ _ err hok
  · intro l h
    have hok : ∀ r ∈ intoNumList l, isErrB r = false := by
      intro r hr
      rw [intoNumList_eq_map] at hr
      obtain ⟨y, hy, rfl⟩ := List.mem_map.mp hr
      exact h y hy
    have hmap : (intoNumList l).map okValue = l.map valNum := by
      rw [intoNumList_eq_map, List.map_map]
      rfl
    constructor
    · simp only [intoNum]
      rw [exCombine_all_ok 0 _ _ hok, hmap, List.sum_eq_foldl]
    · simp only [intoNum]
      rw [exCombine_all_ok 1 _ _ hok, hmap, List.prod_eq_foldl]
  · have : sortE [Expr.sym "x" none, Expr.real 1] =
        [Expr.real 1, Expr.sym "x" none] := by
      simp [sortE, List.insertionSort, List.orderedInsert]
      unfold leE
      rw [cmpE_cross _ _ (by simp [rank])]
      simp [rank, cmpStd]
    rw [Expr.addition, this]
    have h1 : intoNumList [Expr.real 1, Expr.sym "x" none] =
        [.ok 1, .error (Expr.sym "x" none)] := by
      rw [intoNumList_eq_map]
      simp [intoNum]
    simp only [intoNum, h1]
    rfl

/-- Witness for C6 at a concrete split: the sum and product over
`[2, y, 3]` with unbound `y` both fail with exactly `y`. -/
theorem C6_witness :
    intoNum (.add [Expr.real 2, Expr.sym "y" none, Expr.real 3]) =
      .error (Expr.sym "y" none) ∧
    intoNum (.mul [Expr.real 2, Expr.sym "y" none, Expr.real 3]) =
      .error (Expr.sym "y" none) :=
  C6_evaluation_first_failure_propagation.2.1 [Expr.real 2]
    (Expr.sym "y" none) [Expr.real 3] (Expr.sym "y" none)
    (by intro y hy; simp at hy; subst hy; simp [intoNum, isErrB])
    (by simp [intoNum])

/-- Is the node an n-ary sum. -/
def isAddNode : Expr → Bool
  | .add _ => true
  | _ => false

/-- Is the node a leaf (a numeric literal or a symbol) — the variants the
expansion match does not name. -/
def isLeaf : Expr → Bool
  | .integer _ => true
  | .real _ => true
  | .sym _ _ => true
  | _ => false

/-- All ways of picking, for every factor, either the factor itself or —
when it is a sum — one of its addends.  This is the full distribution of
multiplication over addition. -/
def distributePicks : List Expr → List (List Expr)
  | [] => [[]]
  | f :: fs =>
      match f with
      | .add ts => ts.flatMap fun t => (distributePicks fs).map fun r => t :: r
      | _ => (distributePicks fs).map fun r => f :: r

/-- Modelled from the spec §4.5
(`expansion_rules/multiplicative_distributive.rs` is not in the sources):
a multiplication containing an addition operand distributes,
`(a+b)*c → a*c + b*c`, with the resulting sum re-expanded recursively —
realised as the full distribution, which is its fixed point since the
operands were already expanded. -/
def multiplicativeDistributive (e : Expr) : Expr :=
  match e with
  | .mul l =>
      if l.any isAddNode then
        Expr.addition ((distributePicks l).map Expr.multiplication)
      else .mul l
  | e => e

/-- Modelled from the spec §4.5
(`expansion_rules/power_distributive_addition.rs` is not in the sources):
a power of a sum to a non-negative integer literal expands by repeated
self-multiplication; symbolic, negative or non-integer modifiers are left
unexpanded. -/
def powerDistributiveAddition (e : Expr) : Expr :=
  match e with
  | .pow (.add ts) (.integer n) =>
      if 0 ≤ n then
        multiplicativeDistributive
          (Expr.multiplication (List.replicate n.toNat (.add ts)))
      else .pow (.add ts) (.integer n)
  | e => e

mutual
/-- `Expression::expand` (manipulation/expand.rs lines 12-38): recursive
expansion — multiplication expands its factors then applies the
multiplicative-distributive rule to the rebuilt product; addition rebuilds
from expanded addends; power expands argument and modifier then applies
the power-distributive rule; logarithm recurses into both roles; every
other variant is returned unchanged. -/
def expand : Expr → Expr
  | .mul factors =>
      multiplicativeDistributive (Expr.multiplication (expandList factors))
  | .add addends => Expr.addition (expandList addends)
  | .pow a m => powerDistributiveAddition (.pow (expand a) (expand m))
  | .log a m => .log (expand a) (expand m)
  | e => e
termination_by e => sizeOf e

/-- Pointwise expansion of an operand list (the container `map` of
expand.rs). -/
def expandList : List Expr → List Expr
  | [] => []
  | x :: xs => expand x :: expandList xs
termination_by l => sizeOf l
end

theorem expandList_eq_map (l : List Expr) : expandList l = l.map expand := by
  induction l with
  | nil => simp [expandList]
  | cons x xs ih => simp [expandList, ih]

theorem expand_leaf {e : Expr} (h : isLeaf e = true) : expand e = e := by
  cases e <;> simp_all [isLeaf, expand]

theorem splice_of_not_mul {x : Expr} (h : ∀ fs, x ≠ .mul fs) :
    splice x = [x] := by
  cases x <;> first
    | rfl
    | exact absurd rfl (h _)

theorem splice_leaf {x : Expr} (h : isLeaf x = true) : splice x = [x] := by
  cases x <;> simp_all [isLeaf, splice]

theorem sortE_of_sorted {l : List Expr} (h : List.Sorted leE l) :
    sortE l = l :=
  List.Sorted.insertionSort_eq h

theorem sortE_idem (l : List Expr) : sortE (sortE l) = sortE l :=
  sortE_of_sorted (sortE_sorted l)

theorem perm_pair_cases {α : Type} {x y : α} {l : List α}
    (h : List.Perm l [x, y]) : l = [x, y] ∨ l = [y, x] := by
  rcases l with _ | ⟨u, _ | ⟨v, _ | ⟨w, rest⟩⟩⟩
  · have := h.length_eq; simp at this
  · have := h.length_eq; simp at this
  · have hu : u ∈ [x, y] := h.subset (List.mem_cons_self u [v])
    rcases List.mem_cons.mp hu with rfl | hu
    · have h2 : List.Perm [v] [y] := (List.perm_cons u).mp h
      rw [List.perm_singleton.mp h2]
      exact Or.inl rfl
    · have hu' : u = y := by simpa using hu
      subst hu'
      have h3 : List.Perm (u :: [v]) (u :: [x]) :=
        h.trans (List.Perm.swap u x [])
      have h2 : List.Perm [v] [x] := (List.perm_cons u).mp h3
      rw [List.perm_singleton.mp h2]
      exact Or.inr rfl
  · have := h.length_eq; simp at this

theorem flattenOps_id {l : List Expr} (h : ∀ x ∈ l, splice x = [x]) :
    flattenOps l = l := by
  unfold flattenOps
  induction l with
  | nil => rfl
  | cons x xs ih =>
      rw [List.flatMap_cons, h x (List.mem_cons_self x xs),
        ih fun y hy => h y (List.mem_cons_of_mem x hy)]
      rfl

theorem addition_congr_perm {l₁ l₂ : List Expr} (h : List.Perm l₁ l₂) :
    Expr.addition l₁ = Expr.addition l₂ :=
  congrArg Expr.add (sortE_eq_of_perm h)

theorem multiplication_congr_perm {l₁ l₂ : List Expr}
    (h : List.Perm l₁ l₂) :
    Expr.multiplication l₁ = Expr.multiplication l₂ :=
  congrArg Expr.mul (sortE_eq_of_perm (h.flatMap_right splice))

theorem mult_pair_comm (x y : Expr) :
    Expr.multiplication [x, y] = Expr.multiplication [y, x] :=
  multiplication_congr_perm (List.Perm.swap y x [])

theorem flatMap_singleton_fun {α β : Type} (g : α → β) (l : List α) :
    (l.flatMap fun t => [g t]) = l.map g := by
  induction l with
  | nil => rfl
  | cons x xs ih => simp [List.flatMap_cons, ih]

theorem dp_cons_not_add {f : Expr} (fs : List Expr)
    (h : isAddNode f = false) :
    distributePicks (f :: fs) =
      (distributePicks fs).map fun r => f :: r := by
  cases f <;> simp_all [isAddNode, distributePicks]

/-- The central distribution computation shared by C7 and C8: expanding
the canonical product of a two-addend sum with another factor, all leaves,
gives the canonical sum of the two distributed products. -/
theorem expand_mult_add_pair {a b c : Expr}
    (ha : isLeaf a = true) (hb : isLeaf b = true) (hc : isLeaf c = true) :
    expand (Expr.multiplication [Expr.addition [a, b], c]) =
      Expr.addition
        [Expr.multiplication [a, c], Expr.multiplication [b, c]] := by
  have hcadd : isAddNode c = false := by
    cases c <;> simp_all [isLeaf, isAddNode]
  have hSperm : List.Perm (sortE [a, b]) [a, b] := sortE_perm [a, b]
  have hSleaf : ∀ x ∈ sortE [a, b], isLeaf x = true := by
    intro x hx
    rcases List.mem_pair.mp (hSperm.subset hx) with rfl | rfl
    · exact ha
    · exact hb
  set S := sortE [a, b] with hS
  set A : Expr := .add S with hAdef
  have hsplice : ∀ x ∈ [A, c], splice x = [x] := by
    intro x hx
    rcases List.mem_pair.mp hx with rfl | rfl
    · rfl
    · exact splice_leaf hc
  have hE : Expr.multiplication [A, c] = .mul (sortE [A, c]) := by
    unfold Expr.multiplication
    rw [flattenOps_id hsplice]
  have hLperm : List.Perm (sortE [A, c]) [A, c] := sortE_perm [A, c]
  set L := sortE [A, c] with hL
  have hexpA : expand A = A := by
    rw [hAdef]
    simp only [expand]
    rw [expandList_eq_map]
    have hmapS : S.map expand = S := by
      rw [List.map_congr_left fun x hx => expand_leaf (hSleaf x hx)]
      exact List.map_id S
    unfold Expr.addition
    rw [hmapS, hS, sortE_idem]
  have hexpL : expandList L = L := by
    rw [expandList_eq_map]
    have : ∀ x ∈ L, expand x = x := by
      intro x hx
      rcases List.mem_pair.mp (hLperm.subset hx) with rfl | rfl
      · exact hexpA
      · exact expand_leaf hc
    rw [List.map_congr_left this]
    exact List.map_id L
  have hmultL : Expr.multiplication L = .mul L := by
    unfold Expr.multiplication
    have : ∀ x ∈ L, splice x = [x] :=
      fun x hx => hsplice x (hLperm.subset hx)
    rw [flattenOps_id this, hL, sortE_idem]
  have hany : L.any isAddNode = true := by
    apply List.any_eq_true.mpr
    exact ⟨A, hLperm.symm.subset (List.mem_cons_self A [c]), rfl⟩
  have hstep : expand (Expr.multiplication [A, c]) =
      Expr.addition ((distributePicks L).map Expr.multiplication) := by
    rw [hE]
    simp only [expand]
    rw [hexpL, hmultL]
    unfold multiplicativeDistributive
    simp only [hany, if_true]
  have hfold : Expr.addition [a, b] = A := rfl
  rw [hfold, hstep]
  have hgoal : (distributePicks L).map Expr.multiplication =
      S.map (fun t => Expr.multiplication [t, c]) ∨
      (distributePicks L).map Expr.multiplication =
      S.map (fun t => Expr.multiplication [c, t]) := by
    have hdpc : distributePicks [c] = [[c]] := by
      rw [dp_cons_not_add [] hcadd]
      rfl
    have hdpA : distributePicks [A] = S.map fun t => [t] := by
      rw [hAdef]
      show (S.flatMap fun t => (distributePicks []).map fun r => t :: r) = _
      simp only [distributePicks, List.map_cons, List.map_nil]
      exact flatMap_singleton_fun (fun t => [t]) S
    rcases perm_pair_cases hLperm with hcase | hcase
    · left
      have h1 : distributePicks [A, c] =
          S.flatMap fun t => (distributePicks [c]).map fun r => t :: r := by
        rw [hAdef]
        rfl
      rw [hcase, h1, hdpc]
      simp only [List.map_cons, List.map_nil]
      rw [flatMap_singleton_fun (fun t => [t, c]) S, List.map_map]
      rfl
    · right
      rw [hcase, dp_cons_not_add [A] hcadd, hdpA, List.map_map,
        List.map_map]
      rfl
  have hfix : ∀ (m : List Expr), m = S.map (fun t => Expr.multiplication [t, c]) ∨
      m = S.map (fun t => Expr.multiplication [c, t]) →
      Expr.addition m =
        Expr.addition
          [Expr.multiplication [a, c], Expr.multiplication [b, c]] := by
    intro m hm
    have hswap : S.map (fun t => Expr.multiplication [c, t]) =
        S.map fun t => Expr.multiplication [t, c] :=
      List.map_congr_left fun t _ => mult_pair_comm c t
    have hm' : m = S.map fun t => Expr.multiplication [t, c] := by
      rcases hm with rfl | rfl
      · rfl
      · exact hswap
    rw [hm']
    exact addition_congr_perm (hSperm.map fun t => Expr.multiplication [t, c])
  rcases hgoal with hcase | hcase
  · exact hfix _ (Or.inl hcase)
  · exact hfix _ (Or.inr hcase)

/-- C8: `expand` on a multiplication containing an addition operand
distributes it — the canonical `(a+b)*c` becomes the canonical
`a*c + b*c` — while the variants other than multiplication, addition,
power and logarithm (the leaves of the model) are returned with no
transformation. -/
theorem C8_expand_distribution_and_structural_recursion :
    (∀ a b c : Expr,
      isLeaf a = true → isLeaf b = true → isLeaf c = true →
      expand (Expr.multiplication [Expr.addition [a, b], c]) =
        Expr.addition
          [Expr.multiplication [a, c], Expr.multiplication [b, c]]) ∧
    (∀ e, isLeaf e = true → expand e = e) :=
  ⟨fun _ _ _ ha hb hc => expand_mult_add_pair ha hb hc,
   fun _ h => expand_leaf h⟩

/-- Witness for C8 at concrete leaves. -/
theorem C8_witness :
    expand (Expr.multiplication
        [Expr.addition [Expr.integer 1, Expr.sym "a" none],
         Expr.integer 2]) =
      Expr.addition
        [Expr.multiplication [Expr.integer 1, Expr.integer 2],
         Expr.multiplication [Expr.sym "a" none, Expr.integer 2]] ∧
    expand (Expr.sym "z" none) = Expr.sym "z" none :=
  ⟨C8_expand_distribution_and_structural_recursion.1 _ _ _ rfl rfl rfl,
   C8_expand_distribution_and_structural_recursion.2 _ rfl⟩

theorem intoNum_add_pair_raw {u w : Expr} {vu vw : ℚ}
    (hu : intoNum u = .ok vu) (hw : intoNum w = .ok vw) :
    intoNum (.add [u, w]) = .ok (0 + vu + vw) := by
  simp only [intoNum, intoNumList, hu, hw]
  simp [exCombine, isErrB, okValue, List.find?]

theorem intoNum_mul_pair_raw {u w : Expr} {vu vw : ℚ}
    (hu : intoNum u = .ok vu) (hw : intoNum w = .ok vw) :
    intoNum (.mul [u, w]) = .ok (1 * vu * vw) := by
  simp only [intoNum, intoNumList, hu, hw]
  simp [exCombine, isErrB, okValue, List.find?]

theorem intoNum_addition_pair {x y : Expr} {vx vy : ℚ}
    (hx : intoNum x = .ok vx) (hy : intoNum y = .ok vy) :
    intoNum (Expr.addition [x, y]) = .ok (vx + vy) := by
  unfold Expr.addition
  rcases perm_pair_cases (sortE_perm [x, y]) with hcase | hcase <;>
    rw [hcase]
  · rw [intoNum_add_pair_raw hx hy]
    norm_num
  · rw [intoNum_add_pair_raw hy hx]
    norm_num
    exact add_comm vy vx

theorem intoNum_multiplication_pair {x y : Expr} {vx vy : ℚ}
    (hxs : splice x = [x]) (hys : splice y = [y])
    (hx : intoNum x = .ok vx) (hy : intoNum y = .ok vy) :
    intoNum (Expr.multiplication [x, y]) = .ok (vx * vy) := by
  unfold Expr.multiplication
  rw [flattenOps_id (by
    intro z hz
    rcases List.mem_pair.mp hz with rfl | rfl
    · exact hxs
    · exact hys)]
  rcases perm_pair_cases (sortE_perm [x, y]) with hcase | hcase <;>
    rw [hcase]
  · rw [intoNum_mul_pair_raw hx hy]
    norm_num
  · rw [intoNum_mul_pair_raw hy hx]
    norm_num
    exact mul_comm vy vx

/-- C7: expansion preserves the numeric value — for all numeric literals
`a`, `b`, `c`, evaluating the expansion of the canonical `(a+b)*c`
(which is the distributed sum `a*c + b*c`) yields the same scalar as
evaluating `(a+b)*c` itself. -/
theorem C7_expansion_preserves_numeric_value (a b c : ℚ) :
    intoNum (expand (Expr.multiplication
        [Expr.addition [Expr.real a, Expr.real b], Expr.real c])) =
      intoNum (Expr.multiplication
        [Expr.addition [Expr.real a, Expr.real b], Expr.real c]) := by
  have hva : intoNum (Expr.real a) = .ok a := by simp [intoNum]
  have hvb : intoNum (Expr.real b) = .ok b := by simp [intoNum]
  have hvc : intoNum (Expr.real c) = .ok c := by simp [intoNum]
  rw [@expand_mult_add_pair (Expr.real a) (Expr.real b) (Expr.real c)
    rfl rfl rfl]
  have hM1 := @intoNum_multiplication_pair (Expr.real a) (Expr.real c)
    a c rfl rfl hva hvc
  have hM2 := @intoNum_multiplication_pair (Expr.real b) (Expr.real c)
    b c rfl rfl hvb hvc
  have hL := intoNum_addition_pair hM1 hM2
  have hA := intoNum_addition_pair hva hvb
  have hR := @intoNum_multiplication_pair
    (Expr.addition [Expr.real a, Expr.real b]) (Expr.real c)
    (a + b) c rfl rfl hA hvc
  rw [hL, hR]
  congr 1
  ring

/-- The `Power` node (exponential/power.rs lines 3-7): base and exponent. -/
structure Power : Type where
  base : Expr
  exp : Expr

/-- `Power::boxed_clone` (exponential/power.rs lines 25-30), transcribed
exactly as written: both fields of the clone are built from `self.base` —
line 28 reads `exp: self.base.clone()`. -/
def Power.boxed_clone (p : Power) : Power :=
  { base := p.base, exp := p.base }

/-- C4 (code bug): cloning `Power { base: 2, exp: 3 }` yields
`Power { base: 2, exp: 2 }`, which is not the original — `boxed_clone`
copies the base into the exponent field, so clone does not round-trip as
the spec's clone invariant requires. -/
theorem C4_power_boxed_clone_does_not_round_trip :
    Power.boxed_clone { base := Expr.integer 2, exp := Expr.integer 3 } =
      { base := Expr.integer 2, exp := Expr.integer 2 } ∧
    Power.boxed_clone { base := Expr.integer 2, exp := Expr.integer 3 } ≠
      { base := Expr.integer 2, exp := Expr.integer 3 } := by
  constructor
  · rfl
  · intro h
    have hexp : Expr.integer 2 = Expr.integer 3 := congrArg Power.exp h
    injection hexp with hval
    exact absurd hval (by decide)

/-- The older-era `Expression` that `arithmetics/subtraction.rs` works
over: its `evaluate` match covers exactly `Association` (here the
subtraction node) and `Symbol`. -/
inductive AExpr : Type
  | symbol : String → Option ℚ → AExpr
  | sub : AExpr → AExpr → AExpr

/-- State-passing embedding of `Subtraction::evaluate`
(arithmetics/subtraction.rs lines 22-44) together with the symbol
evaluation it calls (modelled from the spec §4.7: a bound symbol yields
its value, an unbound one fails carrying itself).  The second component
is the expression tree after the call — every access the Rust code makes
through its `RefCell`/`&mut` is threaded here, and the code only reads:
left-hand side first, right-hand side second, combined with `l − r`,
left failure propagated before right. -/
def evaluateS : AExpr → (Except AExpr ℚ) × AExpr
  | .symbol s v =>
      (match v with
       | some q => .ok q
       | none => .error (.symbol s none), .symbol s v)
  | .sub a b =>
      let ra := evaluateS a
      let rb := evaluateS b
      (match ra.1, rb.1 with
       | .ok x, .ok y => .ok (x - y)
       | .error e, _ => .error e
       | .ok _, .error e => .error e, .sub ra.2 rb.2)

/-- C9: evaluation is pure over immutable values: the tree after
evaluation equals the tree before it (no write ever happens through the
interior mutability), hence re-evaluating the evaluated tree returns the
identical result, and equal expressions evaluate to identical results
with no shared state between the calls. -/
theorem C9_evaluation_pure_frame (e : AExpr) :
    (evaluateS e).2 = e ∧
    evaluateS ((evaluateS e).2) = evaluateS e ∧
    ∀ e₂, e = e₂ → evaluateS e = evaluateS e₂ := by
  have hframe : ∀ x : AExpr, (evaluateS x).2 = x := by
    intro x
    induction x with
    | symbol s v => rfl
    | sub a b iha ihb => simp [evaluateS, iha, ihb]
  exact ⟨hframe e, by rw [hframe e], fun e₂ h => h ▸ rfl⟩

/-- Witness for C9 at a concrete subtraction of a bound and an unbound
symbol. -/
theorem C9_witness :
    (evaluateS (.sub (.symbol "a" (some 2)) (.symbol "b" none))).2 =
      .sub (.symbol "a" (some 2)) (.symbol "b" none) ∧
    evaluateS (.sub (.symbol "a" (some 2)) (.symbol "b" none)) =
      evaluateS (.sub (.symbol "a" (some 2)) (.symbol "b" none)) :=
  ⟨(C9_evaluation_pure_frame _).1,
   (C9_evaluation_pure_frame
      (.sub (.symbol "a" (some 2)) (.symbol "b" none))).2.2 _ rfl⟩

/-!
## The simplification engine

Modelled from the spec §4.4 — `simplifiable.rs` and the simplification
rules are not in the sources, only their tests are.  The spec's rule set
(numeric folding, sign folding, opposite-factor collapse with exponent
addition, opposite-term cancellation, rational reduction with the sign on
the numerator) is realised as a recursive post-order rewrite computing a
canonical form directly, which is what rewrite-to-fixed-point demands
(§4.4 requires the rules to be confluent and the result a fixed point).
-/

/-- Decompose iterated integer powers: `(b^j)^k` has key `(base of b, k·j)`,
any other shape is its own key with exponent 1.  This is the "magnitudes
combine by exponent addition" bookkeeping of the opposite-factor rule. -/
def keyOf : Expr → Expr × Int
  | .pow b (.integer k) =>
      let p := keyOf b
      (p.1, k * p.2)
  | x => (x, 1)

/-- Numeric value contributed by a base raised to a total exponent, when
defined: nonzero literals fold by `zpow`; zero to a non-negative power
folds; zero to a negative power is division by zero and stays in the tree
(spec §4.4: simplify never fails, such content is deferred to
evaluation). -/
def groupFold : Expr → Int → Option ℚ
  | .integer d, k =>
      if d = 0 then (if 0 ≤ k then some (if k = 0 then 1 else 0) else none)
      else some ((d : ℚ) ^ k)
  | .real r, k =>
      if r = 0 then (if 0 ≤ k then some (if k = 0 then 1 else 0) else none)
      else some (r ^ k)
  | _, _ => none

/-- Rebuild the expression of a non-foldable group.  A key with exponent 1
is the base itself, except that a product base keeps an explicit power
wrapper so that products never nest. -/
def emitGroup (b : Expr) (k : Int) : Expr :=
  if k = 1 then
    match b with
    | .mul fs => .pow (.mul fs) (.integer 1)
    | _ => b
  else .pow b (.integer k)

/-- Insert a key into a base-sorted association list, adding exponents on
an existing base (exponent addition of the opposite-factor rule). -/
def insertKey (p : Expr × Int) : List (Expr × Int) → List (Expr × Int)
  | [] => [p]
  | q :: rest =>
      match cmpE p.1 q.1 with
      | .lt => p :: q :: rest
      | .eq => (q.1, p.2 + q.2) :: rest
      | .gt => q :: insertKey p rest

/-- Gather the keys of a factor list into the base-sorted group list. -/
def gather : List Expr → List (Expr × Int)
  | [] => []
  | x :: xs => insertKey (keyOf x) (gather xs)

/-- Product of the foldable groups' values (numeric folding: the
operator's identity 1 with multiplication). -/
def foldQ (g : List (Expr × Int)) : ℚ :=
  (g.map fun p => (groupFold p.1 p.2).getD 1).prod

/-- The non-foldable groups, rebuilt as expressions (in base order). -/
def emitsE (g : List (Expr × Int)) : List Expr :=
  (g.filter fun p => (groupFold p.1 p.2).isNone).map fun p =>
    emitGroup p.1 p.2

/-- Canonical factor list of a rational value (rational reduction, spec
§4.4: lowest terms — `ℚ` is normalized — with the sign on the
numerator): nothing for 1, a bare integer for integral values, a bare
reciprocal when the numerator is 1, else numerator times reciprocal of
the denominator. -/
def repFactors (q : ℚ) : List Expr :=
  if q = 1 then []
  else if q.den = 1 then [.integer q.num]
  else if q.num = 1 then [.pow (.integer (q.den : Int)) (.integer (-1))]
  else [.integer q.num, .pow (.integer (q.den : Int)) (.integer (-1))]

/-- Assemble a factor list into a product expression: the empty product
folds to the identity 1, a single factor is unwrapped, otherwise the
canonically sorted product node. -/
def assemble (L : List Expr) : Expr :=
  match L with
  | [] => .integer 1
  | [x] => x
  | fs => .mul (sortE fs)

/-- Canonical literal of a rational value. -/
def ratLit (q : ℚ) : Expr := assemble (repFactors q)

/-- Assemble a group list back into an expression: a vanished numeric
part annihilates the product; otherwise the rational numeral factors and
the non-foldable groups form the product. -/
def rebuild (g : List (Expr × Int)) : Expr :=
  let q := foldQ g
  if q = 0 then .integer 0
  else assemble (repFactors q ++ emitsE g)

/-- Simplification of a product node over already-simplified factors:
flatten nested products, gather keys with exponent addition, fold the
numeric content, rebuild canonically. -/
def simplifyMul (l : List Expr) : Expr := rebuild (gather (flattenOps l))

/-- The exact negation of a simplified expression: the simplified product
`(−1) · x` (spec §4.4, opposite-term cancellation compares against this). -/
def negE (x : Expr) : Expr := simplifyMul [.integer (-1), x]

/-- Simplification of a power node over simplified argument and modifier:
an integer-literal exponent normalizes the iterated-power key — folding a
purely numeric value, re-emitting otherwise; any other exponent leaves
the node as is. -/
def simplifyPow (a m : Expr) : Expr :=
  match m with
  | .integer k =>
      let p := keyOf (.pow a (.integer k))
      match groupFold p.1 p.2 with
      | some v => ratLit v
      | none => emitGroup p.1 p.2
  | _ => .pow a m

/-- The numeric value of a sum operand when it is entirely numeric
(integer or real literal, integer-to-integer power, or a product of
such): the spec's numeric folding / rational classification for sums. -/
def addNumVal (x : Expr) : Option ℚ :=
  let g := gather (flattenOps [x])
  if (emitsE g).isEmpty then some (foldQ g) else none

/-- Opposite-term cancellation (spec §4.4): occurrences of `x` and of its
exact negation `negE x` cancel pairwise; an operand equal to its own
negation cancels with itself by parity; elements whose negation is not an
involution are kept verbatim. -/
def cancelOpposites (s : List Expr) : List Expr :=
  (sortE s).dedup.flatMap fun x =>
    if negE (negE x) ≠ x then List.replicate (s.count x) x
    else if negE x = x then List.replicate (s.count x % 2) x
    else if negE x ∈ s → cmpE x (negE x) = .lt then
      List.replicate (s.count x - s.count (negE x)) x ++
        List.replicate (s.count (negE x) - s.count x) (negE x)
    else []

/-- Assemble an addend list into a sum expression: the empty sum folds to
the additive identity 0, a single addend is unwrapped, otherwise the
canonically sorted sum node. -/
def assembleAdd (L : List Expr) : Expr :=
  match L with
  | [] => .integer 0
  | [x] => x
  | fs => .add (sortE fs)

/-- Simplification of a sum node over already-simplified addends: fold
the numeric operands (identity 0, addition), cancel opposite terms among
the rest, and assemble. -/
def simplifyAdd (l : List Expr) : Expr :=
  let q : ℚ := (l.filterMap addNumVal).sum
  let kept := cancelOpposites (l.filter fun x => (addNumVal x).isNone)
  let numerals : List Expr := if q = 0 then [] else [ratLit q]
  assembleAdd (numerals ++ kept)

mutual
/-- `simplify` (spec §4.4): recursive post-order traversal — simplify all
children first, then apply the local rules of the current variant. -/
def simplify : Expr → Expr
  | .integer n => .integer n
  | .real q => .real q
  | .sym s v => .sym s v
  | .add l => simplifyAdd (simplifyList l)
  | .mul l => simplifyMul (simplifyList l)
  | .pow a b => simplifyPow (simplify a) (simplify b)
  | .log a b => .log (simplify a) (simplify b)
termination_by e => sizeOf e

/-- Pointwise simplification of an operand list. -/
def simplifyList : List Expr → List Expr
  | [] => []
  | x :: xs => simplify x :: simplifyList xs
termination_by l => sizeOf l
end

theorem cmpE_lt_asymm {x y : Expr} (h : cmpE x y = .lt) : cmpE y x = .gt := by
  rw [cmpE_swap, h]; rfl

theorem cmpE_gt_iff_lt {x y : Expr} : cmpE x y = .gt ↔ cmpE y x = .lt := by
  constructor
  · intro h
    rw [cmpE_swap x y, h]
    rfl
  · intro h
    rcases hc : cmpE x y with _ | _ | _
    · rw [cmpE_swap x y, hc] at h
      simp [Ordering.swap] at h
    · rw [cmpE_swap x y, hc] at h
      simp [Ordering.swap] at h
    · rfl

theorem cmpE_eq_symm {x y : Expr} (h : cmpE x y = .eq) : cmpE y x = .eq := by
  rw [cmpE_swap, h]; rfl

theorem ik_lt {p r : Expr × Int} {rest : List (Expr × Int)}
    (h : cmpE p.1 r.1 = .lt) : insertKey p (r :: rest) = p :: r :: rest := by
  simp [insertKey, h]

theorem ik_eq {p r : Expr × Int} {rest : List (Expr × Int)}
    (h : cmpE p.1 r.1 = .eq) :
    insertKey p (r :: rest) = (r.1, p.2 + r.2) :: rest := by
  simp [insertKey, h]

theorem ik_gt {p r : Expr × Int} {rest : List (Expr × Int)}
    (h : cmpE p.1 r.1 = .gt) :
    insertKey p (r :: rest) = r :: insertKey p rest := by
  simp [insertKey, h]

theorem insertKey_comm (p q : Expr × Int) (g : List (Expr × Int)) :
    insertKey p (insertKey q g) = insertKey q (insertKey p g) := by
  induction g with
  | nil =>
      show insertKey p [q] = insertKey q [p]
      rcases hpq : cmpE p.1 q.1 with _ | _ | _
      · rw [ik_lt hpq, ik_gt (cmpE_lt_asymm hpq)]
        rfl
      · have h1 : p.1 = q.1 := (cmpE_eq_iff _ _).mp hpq
        rw [ik_eq hpq, ik_eq (cmpE_eq_symm hpq), h1]
        have : p.2 + q.2 = q.2 + p.2 := by omega
        rw [this]
      · rw [ik_gt hpq, ik_lt (cmpE_gt_iff_lt.mp hpq)]
        rfl
  | cons r rest ih =>
      rcases hpr : cmpE p.1 r.1 with _ | _ | _ <;>
        rcases hqr : cmpE q.1 r.1 with _ | _ | _
      · -- p < r, q < r: reduces to head insertion order
        rw [ik_lt hpr, ik_lt hqr]
        rcases hpq : cmpE p.1 q.1 with _ | _ | _
        · rw [ik_lt hpq, ik_gt (cmpE_lt_asymm hpq), ik_lt hqr]
        · have h1 : p.1 = q.1 := (cmpE_eq_iff _ _).mp hpq
          rw [ik_eq hpq, ik_eq (cmpE_eq_symm hpq), h1]
          have : p.2 + q.2 = q.2 + p.2 := by omega
          rw [this]
        · rw [ik_gt hpq, ik_lt (cmpE_gt_iff_lt.mp hpq), ik_lt hpr]
      · -- p < r, q = r
        have hq1 : q.1 = r.1 := (cmpE_eq_iff _ _).mp hqr
        have hpq : cmpE p.1 q.1 = .lt := by rw [hq1]; exact hpr
        rw [ik_eq hqr, ik_lt hpr, ik_lt (show cmpE p.1 (r.1, q.2 + r.2).1 = .lt from hpr),
          ik_gt (cmpE_lt_asymm hpq), ik_eq hqr]
      · -- p < r, q > r
        have hpq : cmpE p.1 q.1 = .lt :=
          cmpE_lt_trans r.1 p.1 q.1 hpr (cmpE_gt_iff_lt.mp hqr)
        rw [ik_gt hqr, ik_lt hpr, ik_lt hpr,
          ik_gt (cmpE_lt_asymm hpq), ik_gt hqr]
      · -- p = r, q < r
        have hp1 : p.1 = r.1 := (cmpE_eq_iff _ _).mp hpr
        have hqp : cmpE q.1 p.1 = .lt := by rw [hp1]; exact hqr
        rw [ik_lt hqr, ik_eq hpr, ik_gt (cmpE_gt_iff_lt.mpr hqp),
          ik_eq hpr, ik_lt (show cmpE q.1 (r.1, p.2 + r.2).1 = .lt from hqr)]
      · -- p = r, q = r
        rw [ik_eq hqr, ik_eq hpr,
          ik_eq (show cmpE p.1 (r.1, q.2 + r.2).1 = .eq from hpr),
          ik_eq (show cmpE q.1 (r.1, p.2 + r.2).1 = .eq from hqr)]
        have : p.2 + (q.2 + r.2) = q.2 + (p.2 + r.2) := by omega
        rw [this]
      · -- p = r, q > r
        have hp1 : p.1 = r.1 := (cmpE_eq_iff _ _).mp hpr
        have hqp : cmpE q.1 p.1 = .gt := by rw [hp1]; exact hqr
        rw [ik_gt hqr, ik_eq hpr,
          ik_eq (show cmpE p.1 r.1 = .eq from hpr),
          ik_gt (show cmpE q.1 (r.1, p.2 + r.2).1 = .gt from hqr)]
      · -- p > r, q < r
        have hqp : cmpE q.1 p.1 = .lt :=
          cmpE_lt_trans r.1 q.1 p.1 hqr (cmpE_gt_iff_lt.mp hpr)
        rw [ik_lt hqr, ik_gt hpr, ik_gt (cmpE_gt_iff_lt.mpr hqp),
          ik_gt hpr, ik_lt hqr]
      · -- p > r, q = r
        have hq1 : q.1 = r.1 := (cmpE_eq_iff _ _).mp hqr
        have hpq : cmpE p.1 q.1 = .gt := by rw [hq1]; exact hpr
        rw [ik_eq hqr, ik_gt hpr,
          ik_gt (show cmpE p.1 (r.1, q.2 + r.2).1 = .gt from hpr),
          ik_eq (show cmpE q.1 r.1 = .eq from hqr)]
      · -- p > r, q > r
        rw [ik_gt hqr, ik_gt hpr, ik_gt hpr, ik_gt hqr, ih]

theorem gather_perm {l₁ l₂ : List Expr} (h : List.Perm l₁ l₂) :
    gather l₁ = gather l₂ := by
  induction h with
  | nil => rfl
  | cons x _ ih => simp [gather, ih]
  | swap x y l => exact insertKey_comm (keyOf y) (keyOf x) (gather l)
  | trans _ _ ih₁ ih₂ => exact ih₁.trans ih₂

theorem foldQ_perm {g₁ g₂ : List (Expr × Int)} (h : List.Perm g₁ g₂) :
    foldQ g₁ = foldQ g₂ :=
  (h.map _).prod_eq

theorem emitsE_perm {g₁ g₂ : List (Expr × Int)} (h : List.Perm g₁ g₂) :
    List.Perm (emitsE g₁) (emitsE g₂) :=
  (h.filter _).map _

theorem assemble_congr {L₁ L₂ : List Expr} (h : List.Perm L₁ L₂) :
    assemble L₁ = assemble L₂ := by
  rcases L₁ with _ | ⟨x, _ | ⟨y, rest⟩⟩
  · rw [List.nil_perm.mp h]
  · rw [List.singleton_perm.mp h]
  · have hlen := h.length_eq
    rcases L₂ with _ | ⟨u, _ | ⟨v, rest₂⟩⟩
    · simp at hlen
    · simp at hlen
    · show Expr.mul (sortE (x :: y :: rest)) = Expr.mul (sortE (u :: v :: rest₂))
      rw [sortE_eq_of_perm h]

theorem rebuild_congr {g₁ g₂ : List (Expr × Int)}
    (hq : foldQ g₁ = foldQ g₂) (he : List.Perm (emitsE g₁) (emitsE g₂)) :
    rebuild g₁ = rebuild g₂ := by
  unfold rebuild
  rw [hq]
  by_cases h0 : foldQ g₂ = 0
  · simp [h0]
  · simp only [h0, if_false]
    exact assemble_congr (List.Perm.append_left _ he)

theorem mem_insertKey_bases {p r : Expr × Int} {g : List (Expr × Int)}
    (h : r ∈ insertKey p g) : r.1 = p.1 ∨ r.1 ∈ g.map Prod.fst := by
  induction g with
  | nil =>
      simp [insertKey] at h
      exact Or.inl (by rw [h])
  | cons s rest ih =>
      rcases hc : cmpE p.1 s.1 with _ | _ | _
      · rw [ik_lt hc] at h
        rcases List.mem_cons.mp h with rfl | h2
        · exact Or.inl rfl
        · rcases List.mem_cons.mp h2 with rfl | h3
          · exact Or.inr (by simp)
          · exact Or.inr (by simp [List.mem_map.mpr ⟨r, h3, rfl⟩])
      · rw [ik_eq hc] at h
        rcases List.mem_cons.mp h with rfl | h2
        · exact Or.inr (by simp)
        · exact Or.inr (by simp [List.mem_map.mpr ⟨r, h2, rfl⟩])
      · rw [ik_gt hc] at h
        rcases List.mem_cons.mp h with rfl | h2
        · exact Or.inr (by simp)
        · rcases ih h2 with h3 | h3
          · exact Or.inl h3
          · exact Or.inr (by simp [h3])

theorem mem_gather_bases {b : Expr} {l : List Expr}
    (h : b ∈ (gather l).map Prod.fst) : b ∈ l.map fun x => (keyOf x).1 := by
  induction l with
  | nil => simp [gather] at h
  | cons x xs ih =>
      rcases List.mem_map.mp h with ⟨r, hr, rfl⟩
      rcases mem_insertKey_bases hr with h2 | h2
      · simp [h2]
      · simp only [List.map_cons, List.mem_cons]
        exact Or.inr (ih h2)

/-- The numeric contribution of one factor through its key. -/
def contribOf (x : Expr) : ℚ := (groupFold (keyOf x).1 (keyOf x).2).getD 1

/-- Is the factor's key non-foldable. -/
def isNonFold (x : Expr) : Bool := (groupFold (keyOf x).1 (keyOf x).2).isNone

/-- The re-emitted expression of a factor's key. -/
def emitOf (x : Expr) : Expr := emitGroup (keyOf x).1 (keyOf x).2

theorem insertKey_perm_of_new {p : Expr × Int} {g : List (Expr × Int)}
    (h : ∀ q ∈ g, cmpE p.1 q.1 ≠ .eq) :
    List.Perm (insertKey p g) (p :: g) := by
  induction g with
  | nil => simp [insertKey]
  | cons r rest ih =>
      rcases hc : cmpE p.1 r.1 with _ | _ | _
      · rw [ik_lt hc]
      · exact absurd hc (h r (List.mem_cons_self r rest))
      · rw [ik_gt hc]
        exact (List.Perm.cons r
          (ih fun q hq => h q (List.mem_cons_of_mem r hq))).trans
          (List.Perm.swap p r rest)

/-- The distinct-key-bases hypothesis for a factor list. -/
def DKeys (l : List Expr) : Prop :=
  l.Pairwise fun a b => (keyOf a).1 ≠ (keyOf b).1

theorem gather_content_of_dkeys {l : List Expr} (h : DKeys l) :
    foldQ (gather l) = (l.map contribOf).prod ∧
    List.Perm (emitsE (gather l)) ((l.filter isNonFold).map emitOf) := by
  induction l with
  | nil => simp [gather, foldQ, emitsE]
  | cons x xs ih =>
      have hhead : ∀ y ∈ xs, (keyOf x).1 ≠ (keyOf y).1 :=
        (List.pairwise_cons.mp h).1
      have htail := ih (List.pairwise_cons.mp h).2
      have hnew : ∀ q ∈ gather xs, cmpE (keyOf x).1 q.1 ≠ .eq := by
        intro q hq heq
        have hb : q.1 ∈ xs.map fun y => (keyOf y).1 :=
          mem_gather_bases (List.mem_map.mpr ⟨q, hq, rfl⟩)
        rcases List.mem_map.mp hb with ⟨y, hy, hyb⟩
        exact hhead y hy (((cmpE_eq_iff _ _).mp heq).trans hyb.symm)
      have hperm : List.Perm (gather (x :: xs)) (keyOf x :: gather xs) :=
        insertKey_perm_of_new hnew
      constructor
      · rw [foldQ_perm hperm]
        show foldQ (keyOf x :: gather xs) = _
        unfold foldQ
        rw [List.map_cons, List.prod_cons, List.map_cons, List.prod_cons]
        rw [show (xs.map contribOf).prod = foldQ (gather xs) from htail.1.symm]
        rfl
      · refine (emitsE_perm hperm).trans ?_
        show List.Perm (emitsE (keyOf x :: gather xs)) _
        rcases hnf : (groupFold (keyOf x).1 (keyOf x).2).isNone with _ | _
        · simpa [emitsE, isNonFold, emitOf, List.filter_cons, hnf]
            using htail.2
        · simpa [emitsE, isNonFold, emitOf, List.filter_cons, hnf]
            using List.Perm.cons (emitGroup (keyOf x).1 (keyOf x).2) htail.2

/-- Strict base-sortedness of a group list. -/
def KSorted (g : List (Expr × Int)) : Prop :=
  g.Pairwise fun p q => cmpE p.1 q.1 = .lt

theorem mem_insertKey_cases {p r : Expr × Int} {g : List (Expr × Int)}
    (h : r ∈ insertKey p g) :
    r = p ∨ r ∈ g ∨ (∃ s ∈ g, r = (s.1, p.2 + s.2)) := by
  induction g with
  | nil =>
      simp [insertKey] at h
      exact Or.inl h
  | cons s rest ih =>
      rcases hc : cmpE p.1 s.1 with _ | _ | _
      · rw [ik_lt hc] at h
        rcases List.mem_cons.mp h with rfl | h2
        · exact Or.inl rfl
        · exact Or.inr (Or.inl h2)
      · rw [ik_eq hc] at h
        rcases List.mem_cons.mp h with rfl | h2
        · exact Or.inr (Or.inr ⟨s, List.mem_cons_self s rest, rfl⟩)
        · exact Or.inr (Or.inl (List.mem_cons_of_mem s h2))
      · rw [ik_gt hc] at h
        rcases List.mem_cons.mp h with rfl | h2
        · exact Or.inr (Or.inl (List.mem_cons_self r rest))
        · rcases ih h2 with h3 | h3 | ⟨t, ht, h4⟩
          · exact Or.inl h3
          · exact Or.inr (Or.inl (List.mem_cons_of_mem s h3))
          · exact Or.inr (Or.inr ⟨t, List.mem_cons_of_mem s ht, h4⟩)

theorem insertKey_ksorted {p : Expr × Int} {g : List (Expr × Int)}
    (h : KSorted g) : KSorted (insertKey p g) := by
  induction g with
  | nil => simp [insertKey, KSorted]
  | cons s rest ih =>
      have hrest : KSorted rest := (List.pairwise_cons.mp h).2
      have hhead : ∀ q ∈ rest, cmpE s.1 q.1 = .lt :=
        (List.pairwise_cons.mp h).1
      rcases hc : cmpE p.1 s.1 with _ | _ | _
      · rw [ik_lt hc]
        refine List.pairwise_cons.mpr ⟨?_, h⟩
        intro q hq
        rcases List.mem_cons.mp hq with rfl | h2
        · exact hc
        · exact cmpE_lt_trans s.1 p.1 q.1 hc (hhead q h2)
      · rw [ik_eq hc]
        exact List.pairwise_cons.mpr ⟨hhead, hrest⟩
      · rw [ik_gt hc]
        refine List.pairwise_cons.mpr ⟨?_, ih hrest⟩
        intro q hq
        rcases mem_insertKey_cases hq with rfl | h2 | ⟨t, ht, h4⟩
        · exact cmpE_gt_iff_lt.mp hc
        · exact hhead q h2
        · rw [h4]
          exact hhead t ht

theorem gather_ksorted (l : List Expr) : KSorted (gather l) := by
  induction l with
  | nil => simp [gather, KSorted]
  | cons x xs ih => exact insertKey_ksorted ih

/-- A key base never decomposes further. -/
theorem keyOf_base_irreducible : ∀ x : Expr, keyOf (keyOf x).1 = ((keyOf x).1, 1) := by
  intro x
  induction x using Expr.myInduction with
  | hint n => rfl
  | hreal q => rfl
  | hsym s v => rfl
  | hadd l _ => rfl
  | hmul l _ => rfl
  | hpow a b iha _ =>
      cases b <;> simp [keyOf]
      exact iha
  | hlog a b _ _ => rfl

theorem keyOf_emitGroup {b : Expr} {k : Int} (hb : keyOf b = (b, 1)) :
    keyOf (emitGroup b k) = (b, k) := by
  unfold emitGroup
  by_cases h1 : k = 1
  · subst h1
    cases b <;> simp [keyOf, hb] at hb ⊢ <;> simp [hb]
  · simp only [h1, if_false]
    show ((keyOf b).1, k * (keyOf b).2) = (b, k)
    rw [hb]
    simp

/-- An emitted group is never itself a bare product node. -/
theorem emitGroup_not_mul (b : Expr) (k : Int) :
    ∀ fs, emitGroup b k ≠ .mul fs := by
  intro fs
  unfold emitGroup
  by_cases h1 : k = 1
  · subst h1
    cases b <;> simp
  · simp [h1]

theorem splice_emitGroup (b : Expr) (k : Int) :
    splice (emitGroup b k) = [emitGroup b k] :=
  splice_of_not_mul (emitGroup_not_mul b k)

theorem keyOf_integer (n : Int) : keyOf (.integer n) = (.integer n, 1) := rfl

theorem keyOf_invPow (d : Int) :
    keyOf (.pow (.integer d) (.integer (-1))) = (.integer d, -1) := rfl

theorem contribOf_integer (n : Int) : contribOf (.integer n) = (n : ℚ) := by
  unfold contribOf
  rw [keyOf_integer]
  by_cases h : n = 0
  · subst h
    simp [groupFold]
  · simp [groupFold, h]

theorem isNonFold_integer (n : Int) : isNonFold (.integer n) = false := by
  unfold isNonFold
  rw [keyOf_integer]
  by_cases h : n = 0
  · subst h
    simp [groupFold]
  · simp [groupFold, h]

theorem contribOf_invPow {d : Int} (hd : d ≠ 0) :
    contribOf (.pow (.integer d) (.integer (-1))) = (d : ℚ)⁻¹ := by
  unfold contribOf
  rw [keyOf_invPow]
  simp [groupFold, hd]

theorem isNonFold_invPow {d : Int} (hd : d ≠ 0) :
    isNonFold (.pow (.integer d) (.integer (-1))) = false := by
  unfold isNonFold
  rw [keyOf_invPow]
  simp [groupFold, hd]

theorem den_int_pos (q : ℚ) : (0 : Int) < (q.den : Int) := by
  exact_mod_cast q.den_pos

theorem den_int_ne (q : ℚ) : ((q.den : Int)) ≠ 0 := ne_of_gt (den_int_pos q)

theorem repFactors_prod (q : ℚ) : ((repFactors q).map contribOf).prod = q := by
  unfold repFactors
  by_cases h1 : q = 1
  · simp [h1]
  by_cases h2 : q.den = 1
  · simp only [h1, if_false, h2, if_true, List.map_cons, List.map_nil,
      List.prod_cons, List.prod_nil, contribOf_integer, mul_one]
    exact (Rat.den_eq_one_iff q).mp h2
  by_cases h3 : q.num = 1
  · simp only [h1, if_false, h2, h3, if_true, List.map_cons, List.map_nil,
      List.prod_cons, List.prod_nil, contribOf_invPow (den_int_ne q), mul_one]
    rw [show ((q.den : Int) : ℚ) = (q.den : ℚ) by push_cast; ring]
    rw [inv_eq_one_div]
    conv_rhs => rw [← Rat.num_div_den q, h3]
    push_cast
    ring
  · simp only [h1, if_false, h2, h3, if_false, List.map_cons, List.map_nil,
      List.prod_cons, List.prod_nil, contribOf_integer,
      contribOf_invPow (den_int_ne q), mul_one]
    rw [show ((q.den : Int) : ℚ) = (q.den : ℚ) by push_cast; ring]
    rw [← div_eq_mul_inv]
    exact Rat.num_div_den q

theorem repFactors_nonfold (q : ℚ) :
    ∀ x ∈ repFactors q, isNonFold x = false := by
  unfold repFactors
  by_cases h1 : q = 1
  · simp [h1]
  by_cases h2 : q.den = 1
  · simp only [h1, if_false, h2, if_true, List.mem_singleton]
    rintro x rfl
    exact isNonFold_integer q.num
  by_cases h3 : q.num = 1
  · simp only [h1, if_false, h2, h3, if_true, List.mem_singleton]
    rintro x rfl
    exact isNonFold_invPow (den_int_ne q)
  · simp only [h1, if_false, h2, h3, List.mem_cons, List.mem_singleton,
      List.not_mem_nil]
    rintro x (rfl | rfl | h)
    · exact isNonFold_integer q.num
    · exact isNonFold_invPow (den_int_ne q)
    · cases h

theorem repFactors_not_mul (q : ℚ) :
    ∀ x ∈ repFactors q, ∀ fs, x ≠ .mul fs := by
  unfold repFactors
  by_cases h1 : q = 1
  · simp [h1]
  by_cases h2 : q.den = 1
  · simp only [h1, if_false, h2, if_true, List.mem_singleton]
    rintro x rfl fs h
    cases h
  by_cases h3 : q.num = 1
  · simp only [h1, if_false, h2, h3, if_true, List.mem_singleton]
    rintro x rfl fs h
    cases h
  · simp only [h1, if_false, h2, h3, List.mem_cons, List.mem_singleton,
      List.not_mem_nil]
    rintro x (rfl | rfl | h) fs hx
    · cases hx
    · cases hx
    · cases h

theorem num_ne_den {q : ℚ} (h2 : q.den ≠ 1) : q.num ≠ (q.den : Int) := by
  intro h
  have hred := q.reduced
  rw [h] at hred
  simp only [Int.natAbs_ofNat] at hred
  exact h2 ((Nat.coprime_self q.den).mp hred)

theorem repFactors_dkeys (q : ℚ) : DKeys (repFactors q) := by
  unfold repFactors DKeys
  by_cases h1 : q = 1
  · simp [h1]
  by_cases h2 : q.den = 1
  · simp [h1, h2]
  by_cases h3 : q.num = 1
  · simp [h1, h2, h3]
  · simp only [h1, if_false, h2, h3, List.pairwise_cons,
      List.mem_singleton, List.pairwise_cons, List.not_mem_nil,
      List.Pairwise.nil, and_true]
    constructor
    · rintro y rfl
      rw [keyOf_integer, keyOf_invPow]
      intro hcontra
      have : q.num = (q.den : Int) := by
        injection hcontra
      exact num_ne_den h2 this
    · intro y hy
      cases hy

theorem sortE_pair_of_le {x y : Expr} (h : leE x y) : sortE [x, y] = [x, y] := by
  unfold sortE
  simp only [List.insertionSort, List.orderedInsert]
  rw [if_pos h]

theorem ratLit_one : ratLit 1 = .integer 1 := by
  simp [ratLit, repFactors, assemble]

theorem ratLit_int {q : ℚ} (h : q.den = 1) :
    ratLit q = .integer q.num := by
  unfold ratLit repFactors
  by_cases h1 : q = 1
  · subst h1
    simp [assemble]
  · simp [h1, h, assemble]

theorem ratLit_invForm {q : ℚ} (hden : q.den ≠ 1) (hnum : q.num = 1) :
    ratLit q = .pow (.integer (q.den : Int)) (.integer (-1)) := by
  have h1 : q ≠ 1 := fun h => hden (by rw [h]; rfl)
  unfold ratLit repFactors
  simp [h1, hden, hnum, assemble]

theorem ratLit_mulForm {q : ℚ} (hden : q.den ≠ 1) (hnum : q.num ≠ 1) :
    ratLit q =
      .mul [.integer q.num, .pow (.integer (q.den : Int)) (.integer (-1))] := by
  have h1 : q ≠ 1 := fun h => hden (by rw [h]; rfl)
  unfold ratLit repFactors
  simp only [h1, if_false, hden, hnum, assemble]
  have hle : leE (.integer q.num)
      (.pow (.integer (q.den : Int)) (.integer (-1))) := by
    unfold leE
    rw [cmpE_cross _ _ (by simp [rank])]
    simp [rank, cmpStd]
  rw [sortE_pair_of_le hle]

mutual
/-- The canonical-form predicate: an expression is simplified when its
children are and the local rule of its variant leaves it unchanged. -/
def IsSimpB : Expr → Bool
  | .integer _ => true
  | .real _ => true
  | .sym _ _ => true
  | .add F => IsSimpL F && decide (simplifyAdd F = .add F)
  | .mul F => IsSimpL F && decide (simplifyMul F = .mul F)
  | .pow a m => IsSimpB a && IsSimpB m && decide (simplifyPow a m = .pow a m)
  | .log a m => IsSimpB a && IsSimpB m
termination_by e => sizeOf e

/-- All members of a list are simplified. -/
def IsSimpL : List Expr → Bool
  | [] => true
  | x :: xs => IsSimpB x && IsSimpL xs
termination_by l => sizeOf l
end

theorem isSimpB_int (n : Int) : IsSimpB (.integer n) = true := by
  simp [IsSimpB]

theorem isSimpB_real (q : ℚ) : IsSimpB (.real q) = true := by
  simp [IsSimpB]

theorem isSimpB_sym (s : String) (v : Option ℚ) :
    IsSimpB (.sym s v) = true := by
  simp [IsSimpB]

theorem isSimpB_add (F : List Expr) :
    IsSimpB (.add F) = (IsSimpL F && decide (simplifyAdd F = .add F)) := by
  simp [IsSimpB]

theorem isSimpB_mul (F : List Expr) :
    IsSimpB (.mul F) = (IsSimpL F && decide (simplifyMul F = .mul F)) := by
  simp [IsSimpB]

theorem isSimpB_pow (a m : Expr) :
    IsSimpB (.pow a m) =
      (IsSimpB a && IsSimpB m && decide (simplifyPow a m = .pow a m)) := by
  simp [IsSimpB]

theorem isSimpB_log (a m : Expr) :
    IsSimpB (.log a m) = (IsSimpB a && IsSimpB m) := by
  simp [IsSimpB]

theorem isSimpL_nil : IsSimpL [] = true := by
  simp [IsSimpL]

theorem isSimpL_cons (x : Expr) (xs : List Expr) :
    IsSimpL (x :: xs) = (IsSimpB x && IsSimpL xs) := by
  simp [IsSimpL]

theorem isSimpL_iff (F : List Expr) :
    IsSimpL F = true ↔ ∀ x ∈ F, IsSimpB x = true := by
  induction F with
  | nil => simp [IsSimpL]
  | cons x xs ih => simp [IsSimpL, ih]

theorem isSimp_keyBase : ∀ x : Expr, IsSimpB x = true →
    IsSimpB (keyOf x).1 = true := by
  intro x
  induction x using Expr.myInduction with
  | hint n => intro h; exact h
  | hreal q => intro h; exact h
  | hsym s v => intro h; exact h
  | hadd l _ => intro h; exact h
  | hmul l _ => intro h; exact h
  | hpow a b iha _ =>
      intro h
      cases b <;> simp only [keyOf] <;> try exact h
      rename_i k
      have ha : IsSimpB a = true := by
        simp [IsSimpB] at h
        exact h.1
      exact iha ha
  | hlog a b _ _ => intro h; exact h

theorem isSimp_flattenOps {L : List Expr}
    (h : ∀ y ∈ L, IsSimpB y = true) :
    ∀ x ∈ flattenOps L, IsSimpB x = true := by
  intro x hx
  unfold flattenOps at hx
  rcases List.mem_flatMap.mp hx with ⟨y, hy, hxy⟩
  have hys := h y hy
  cases y <;> simp [splice] at hxy
  case mul fs =>
      simp only [IsSimpB, Bool.and_eq_true] at hys
      exact (isSimpL_iff fs).mp hys.1 x hxy
  all_goals (rw [hxy]; exact hys)

theorem gf_int_none {d : Int} {k : Int}
    (h : groupFold (.integer d) k = none) : d = 0 ∧ k < 0 := by
  by_cases hd : d = 0
  · refine ⟨hd, ?_⟩
    subst hd
    simp only [groupFold, if_true] at h
    by_cases hk : 0 ≤ k
    · simp [hk] at h
    · omega
  · simp [groupFold, hd] at h

theorem gf_real_none {r : ℚ} {k : Int}
    (h : groupFold (.real r) k = none) : r = 0 ∧ k < 0 := by
  by_cases hr : r = 0
  · refine ⟨hr, ?_⟩
    subst hr
    simp only [groupFold, if_true] at h
    by_cases hk : 0 ≤ k
    · simp [hk] at h
    · omega
  · simp [groupFold, hr] at h

theorem simplifyPow_int (a : Expr) (k : Int) :
    simplifyPow a (.integer k) =
      match groupFold (keyOf (.pow a (.integer k))).1
          (keyOf (.pow a (.integer k))).2 with
      | some v => ratLit v
      | none =>
          emitGroup (keyOf (.pow a (.integer k))).1
            (keyOf (.pow a (.integer k))).2 := rfl

theorem isSimp_invPow {d : Int} (hd2 : d ≠ 0) (hd1 : d ≠ 1) (hdm : d ≠ -1)
    (hdpos : 0 < d) :
    IsSimpB (.pow (.integer d) (.integer (-1))) = true := by
  rw [isSimpB_pow, Bool.and_eq_true, Bool.and_eq_true, decide_eq_true_eq]
  refine ⟨⟨isSimpB_int d, isSimpB_int (-1)⟩, ?_⟩
  rw [simplifyPow_int]
  rw [show keyOf (.pow (.integer d) (.integer (-1))) = (.integer d, -1) from rfl]
  rw [show ((Expr.integer d, (-1 : Int)).1 : Expr) = .integer d from rfl,
    show ((Expr.integer d, (-1 : Int)).2 : Int) = -1 from rfl]
  rw [show groupFold (Expr.integer d) (-1) = some ((d : ℚ) ^ (-1 : Int))
    from by simp [groupFold, hd2]]
  show ratLit ((d : ℚ) ^ (-1 : Int)) = _
  have hv : ((d : ℚ)) ^ (-1 : ℤ) = ((d : ℚ))⁻¹ := zpow_neg_one _
  rw [hv]
  have hnum : ((d : ℚ))⁻¹.num = 1 := Rat.inv_intCast_num_of_pos hdpos
  have hden : (((d : ℚ))⁻¹.den : ℤ) = d := Rat.inv_intCast_den_of_pos hdpos
  have hden1 : ((d : ℚ))⁻¹.den ≠ 1 := by
    intro hcontra
    rw [hcontra] at hden
    exact hd1 hden.symm
  rw [ratLit_invForm hden1 hnum, hden]

theorem isSimp_emitGroup {b : Expr} {k : Int}
    (hirr : keyOf b = (b, 1)) (hsimp : IsSimpB b = true)
    (hnf : groupFold b k = none) :
    IsSimpB (emitGroup b k) = true := by
  unfold emitGroup
  by_cases h1 : k = 1
  · subst h1
    cases b with
    | mul fs =>
        simp only [if_true]
        rw [isSimpB_pow, Bool.and_eq_true, Bool.and_eq_true,
          decide_eq_true_eq]
        refine ⟨⟨hsimp, isSimpB_int 1⟩, ?_⟩
        rw [simplifyPow_int]
        have hk : keyOf (.pow (.mul fs) (.integer 1)) = (.mul fs, 1) := by
          show ((keyOf (Expr.mul fs)).1, 1 * (keyOf (Expr.mul fs)).2) = _
          simp [keyOf]
        rw [hk]
        rw [show ((Expr.mul fs, (1 : Int)).1 : Expr) = .mul fs from rfl,
          show ((Expr.mul fs, (1 : Int)).2 : Int) = 1 from rfl]
        rw [show groupFold (Expr.mul fs) 1 = none from rfl]
        show emitGroup (.mul fs) 1 = _
        simp [emitGroup]
    | integer n => simp only [if_true]; exact hsimp
    | real q => simp only [if_true]; exact hsimp
    | sym s v => simp only [if_true]; exact hsimp
    | add l => simp only [if_true]; exact hsimp
    | pow a m => simp only [if_true]; exact hsimp
    | log a m => simp only [if_true]; exact hsimp
  · simp only [h1, if_false]
    rw [isSimpB_pow, Bool.and_eq_true, Bool.and_eq_true, decide_eq_true_eq]
    refine ⟨⟨hsimp, isSimpB_int k⟩, ?_⟩
    rw [simplifyPow_int]
    have hk : keyOf (.pow b (.integer k)) = (b, k) := by
      show ((keyOf b).1, k * (keyOf b).2) = _
      rw [hirr]
      simp
    rw [hk]
    rw [show ((b, k).1 : Expr) = b from rfl, show ((b, k).2 : Int) = k from rfl]
    rw [hnf]
    show emitGroup b k = _
    simp [emitGroup, h1]

theorem isSimp_ratLit (q : ℚ) : IsSimpB (ratLit q) = true := by
  by_cases h2 : q.den = 1
  · rw [ratLit_int h2]
    exact isSimpB_int _
  have hdpos : (0 : Int) < (q.den : Int) := den_int_pos q
  have hdne : ((q.den : Int)) ≠ 0 := den_int_ne q
  have hdne1 : ((q.den : Int)) ≠ 1 := by
    intro h
    exact h2 (by exact_mod_cast h)
  have hdnem : ((q.den : Int)) ≠ -1 := by omega
  by_cases h3 : q.num = 1
  · rw [ratLit_invForm h2 h3]
    exact isSimp_invPow hdne hdne1 hdnem hdpos
  · rw [ratLit_mulForm h2 h3]
    rw [isSimpB_mul, Bool.and_eq_true]
    refine ⟨?_, ?_⟩
    · rw [isSimpL_cons, Bool.and_eq_true]
      refine ⟨isSimpB_int _, ?_⟩
      rw [isSimpL_cons, Bool.and_eq_true]
      exact ⟨isSimp_invPow hdne hdne1 hdnem hdpos, isSimpL_nil⟩
    rw [decide_eq_true_eq]
    show simplifyMul
        [.integer q.num, .pow (.integer (q.den : Int)) (.integer (-1))] =
      _
    unfold simplifyMul
    have hfl : flattenOps
        [Expr.integer q.num, .pow (.integer (q.den : Int)) (.integer (-1))] =
        [Expr.integer q.num, .pow (.integer (q.den : Int)) (.integer (-1))] :=
      flattenOps_id (by
        rintro x hx
        rcases List.mem_pair.mp hx with rfl | rfl
        · rfl
        · rfl)
    rw [hfl]
    have hdk : DKeys
        [Expr.integer q.num, .pow (.integer (q.den : Int)) (.integer (-1))] := by
      have := repFactors_dkeys q
      unfold repFactors at this
      have h1 : q ≠ 1 := by
        intro h
        rw [h] at h3
        exact h3 rfl
      simpa [h1, h2, h3] using this
    obtain ⟨hfold, hemits⟩ := gather_content_of_dkeys hdk
    have hq0 : q ≠ 0 := by
      intro h
      rw [h] at h2
      exact h2 rfl
    have hfold2 : foldQ
        (gather [Expr.integer q.num,
          .pow (.integer (q.den : Int)) (.integer (-1))]) = q := by
      rw [hfold]
      have := repFactors_prod q
      unfold repFactors at this
      have h1 : q ≠ 1 := by
        intro h
        rw [h] at h3
        exact h3 rfl
      simpa [h1, h2, h3] using this
    have hemits2 : emitsE
        (gather [Expr.integer q.num,
          .pow (.integer (q.den : Int)) (.integer (-1))]) = [] := by
      apply List.Perm.eq_nil
      refine hemits.trans ?_
      have e1 : isNonFold (Expr.integer q.num) = false := isNonFold_integer _
      have e2 : isNonFold
          (Expr.pow (.integer (q.den : Int)) (.integer (-1))) = false :=
        isNonFold_invPow hdne
      simp [List.filter_cons, e1, e2]
    unfold rebuild
    rw [hfold2, hemits2]
    simp only [hq0, if_false, List.append_nil]
    rw [show (repFactors q) =
      [Expr.integer q.num, .pow (.integer (q.den : Int)) (.integer (-1))] by
        unfold repFactors
        have h1 : q ≠ 1 := by
          intro h
          rw [h] at h3
          exact h3 rfl
        simp [h1, h2, h3]]
    have hle : leE (Expr.integer q.num)
        (.pow (.integer (q.den : Int)) (.integer (-1))) := by
      unfold leE
      rw [cmpE_cross _ _ (by simp [rank])]
      simp [rank, cmpStd]
    show assemble _ = _
    show Expr.mul (sortE [Expr.integer q.num,
      (Expr.integer (q.den : Int)).pow (Expr.integer (-1))]) = _
    rw [sortE_pair_of_le hle]

theorem mem_emitsE {G : List (Expr × Int)} {x : Expr} :
    x ∈ emitsE G ↔
      ∃ p, p ∈ G ∧ groupFold p.1 p.2 = none ∧ emitGroup p.1 p.2 = x := by
  unfold emitsE
  constructor
  · intro h
    rcases List.mem_map.mp h with ⟨p, hp, hx⟩
    rcases List.mem_filter.mp hp with ⟨hpg, hnone⟩
    exact ⟨p, hpg, Option.isNone_iff_eq_none.mp hnone, hx⟩
  · rintro ⟨p, hpg, hnone, rfl⟩
    exact List.mem_map.mpr
      ⟨p, List.mem_filter.mpr ⟨hpg, Option.isNone_iff_eq_none.mpr hnone⟩, rfl⟩

theorem emits_member_props {G : List (Expr × Int)}
    (hkeys : ∀ p ∈ G, keyOf p.1 = (p.1, 1)) :
    ∀ x ∈ emitsE G, groupFold (keyOf x).1 (keyOf x).2 = none ∧
      contribOf x = 1 ∧ isNonFold x = true ∧ emitOf x = x := by
  intro x hx
  rcases mem_emitsE.mp hx with ⟨p, hpg, hnone, hxe⟩
  have hk : keyOf x = (p.1, p.2) := by
    rw [← hxe]
    exact keyOf_emitGroup (hkeys p hpg)
  refine ⟨?_, ?_, ?_, ?_⟩
  · rw [hk]
    exact hnone
  · unfold contribOf
    rw [hk]
    show (groupFold p.1 p.2).getD 1 = 1
    rw [hnone]
    rfl
  · unfold isNonFold
    rw [hk]
    show (groupFold p.1 p.2).isNone = true
    rw [hnone]
    rfl
  · unfold emitOf
    rw [hk]
    show emitGroup p.1 p.2 = x
    exact hxe

theorem repFactors_keyBase {q : ℚ} (hq : q ≠ 0) :
    ∀ x ∈ repFactors q, ∃ d : Int, d ≠ 0 ∧ (keyOf x).1 = .integer d := by
  have hnum : q.num ≠ 0 := fun h => hq (Rat.num_eq_zero.mp h)
  unfold repFactors
  by_cases h1 : q = 1
  · simp [h1]
  by_cases h2 : q.den = 1
  · simp only [h1, if_false, h2, if_true, List.mem_singleton]
    rintro x rfl
    exact ⟨q.num, hnum, by rw [keyOf_integer]⟩
  by_cases h3 : q.num = 1
  · simp only [h1, if_false, h2, h3, if_true, List.mem_singleton]
    rintro x rfl
    exact ⟨(q.den : Int), den_int_ne q, by rw [keyOf_invPow]⟩
  · simp only [h1, h2, h3, if_false, List.mem_cons, List.mem_singleton,
      List.not_mem_nil, or_false]
    rintro x (rfl | rfl)
    · exact ⟨q.num, hnum, by rw [keyOf_integer]⟩
    · exact ⟨(q.den : Int), den_int_ne q, by rw [keyOf_invPow]⟩

theorem emitsE_pairwise_keys {G : List (Expr × Int)}
    (hkeys : ∀ p ∈ G, keyOf p.1 = (p.1, 1)) (hsort : KSorted G) :
    (emitsE G).Pairwise fun a b => (keyOf a).1 ≠ (keyOf b).1 := by
  unfold emitsE
  rw [List.pairwise_map]
  have hpf : (G.filter fun p => (groupFold p.1 p.2).isNone).Pairwise
      fun p r => cmpE p.1 r.1 = .lt :=
    hsort.filter _
  refine hpf.imp_of_mem ?_
  intro a b ha hb hab
  have haG : a ∈ G := (List.mem_filter.mp ha).1
  have hbG : b ∈ G := (List.mem_filter.mp hb).1
  rw [keyOf_emitGroup (hkeys a haG), keyOf_emitGroup (hkeys b hbG)]
  show a.1 ≠ b.1
  intro he
  rw [he] at hab
  have h2 : cmpE b.1 b.1 = .eq := (cmpE_eq_iff _ _).mpr rfl
  exact Ordering.noConfusion (hab.symm.trans h2)

theorem regather_dkeys {G : List (Expr × Int)}
    (hkeys : ∀ p ∈ G, keyOf p.1 = (p.1, 1)) (hsort : KSorted G)
    (hq : foldQ G ≠ 0) :
    DKeys (repFactors (foldQ G) ++ emitsE G) := by
  unfold DKeys
  rw [List.pairwise_append]
  refine ⟨repFactors_dkeys _, emitsE_pairwise_keys hkeys hsort, ?_⟩
  intro a ha b hb hEq
  rcases repFactors_keyBase hq a ha with ⟨d, hd0, hkd⟩
  have hgb := (emits_member_props hkeys b hb).1
  rw [← hEq, hkd] at hgb
  exact hd0 (gf_int_none hgb).1

theorem map_emitOf_id {L : List Expr} (h : ∀ a ∈ L, emitOf a = a) :
    L.map emitOf = L := by
  induction L with
  | nil => rfl
  | cons x xs ih =>
      rw [List.map_cons, h x (List.mem_cons_self x xs),
        ih fun a ha => h a (List.mem_cons_of_mem x ha)]

theorem regather_foldQ {G : List (Expr × Int)}
    (hkeys : ∀ p ∈ G, keyOf p.1 = (p.1, 1)) (hsort : KSorted G)
    (hq : foldQ G ≠ 0) :
    foldQ (gather (repFactors (foldQ G) ++ emitsE G)) = foldQ G := by
  obtain ⟨hfold, hemits⟩ :=
    gather_content_of_dkeys (regather_dkeys hkeys hsort hq)
  have hE := emits_member_props hkeys
  rw [hfold, List.map_append, List.prod_append, repFactors_prod]
  have h1 : ∀ x ∈ (emitsE G).map contribOf, x = 1 := by
    intro x hx
    rcases List.mem_map.mp hx with ⟨y, hy, rfl⟩
    exact (hE y hy).2.1
  rw [List.prod_eq_one h1, mul_one]

theorem regather_emits {G : List (Expr × Int)}
    (hkeys : ∀ p ∈ G, keyOf p.1 = (p.1, 1)) (hsort : KSorted G)
    (hq : foldQ G ≠ 0) :
    List.Perm (emitsE (gather (repFactors (foldQ G) ++ emitsE G)))
      (emitsE G) := by
  obtain ⟨hfold, hemits⟩ :=
    gather_content_of_dkeys (regather_dkeys hkeys hsort hq)
  have hE := emits_member_props hkeys
  refine hemits.trans ?_
  rw [List.filter_append]
  have hrf : (repFactors (foldQ G)).filter isNonFold = [] := by
    rw [List.filter_eq_nil_iff]
    intro a ha
    simp [repFactors_nonfold _ a ha]
  have hef : (emitsE G).filter isNonFold = emitsE G := by
    rw [List.filter_eq_self]
    intro a ha
    exact (hE a ha).2.2.1
  rw [hrf, hef, List.nil_append,
    map_emitOf_id fun a ha => (hE a ha).2.2.2]

theorem rebuild_regather {G : List (Expr × Int)}
    (hkeys : ∀ p ∈ G, keyOf p.1 = (p.1, 1)) (hsort : KSorted G)
    (hq : foldQ G ≠ 0) :
    rebuild (gather (repFactors (foldQ G) ++ emitsE G)) = rebuild G :=
  rebuild_congr (regather_foldQ hkeys hsort hq)
    (regather_emits hkeys hsort hq)

theorem rebuild_eq (G : List (Expr × Int)) :
    rebuild G = if foldQ G = 0 then .integer 0
      else assemble (repFactors (foldQ G) ++ emitsE G) := rfl

theorem isSimp_repFactors (q : ℚ) : ∀ x ∈ repFactors q, IsSimpB x = true := by
  unfold repFactors
  by_cases h1 : q = 1
  · simp [h1]
  by_cases h2 : q.den = 1
  · simp only [h1, if_false, h2, if_true, List.mem_singleton]
    rintro x rfl
    exact isSimpB_int _
  have hdpos := den_int_pos q
  have hdne := den_int_ne q
  have hdne1 : ((q.den : Int)) ≠ 1 := fun h => h2 (by exact_mod_cast h)
  have hdnem : ((q.den : Int)) ≠ -1 := by omega
  by_cases h3 : q.num = 1
  · simp only [h1, if_false, h2, h3, if_true, List.mem_singleton]
    rintro x rfl
    exact isSimp_invPow hdne hdne1 hdnem hdpos
  · simp only [h1, h2, h3, if_false, List.mem_cons, List.mem_singleton,
      List.not_mem_nil, or_false]
    rintro x (rfl | rfl)
    · exact isSimpB_int _
    · exact isSimp_invPow hdne hdne1 hdnem hdpos

theorem isSimp_emitsE {G : List (Expr × Int)}
    (hkeys : ∀ p ∈ G, keyOf p.1 = (p.1, 1))
    (hbase : ∀ p ∈ G, IsSimpB p.1 = true) :
    ∀ x ∈ emitsE G, IsSimpB x = true := by
  intro x hx
  rcases mem_emitsE.mp hx with ⟨p, hpg, hnone, rfl⟩
  exact isSimp_emitGroup (hkeys p hpg) (hbase p hpg) hnone

theorem emitsE_not_mul {G : List (Expr × Int)} :
    ∀ x ∈ emitsE G, ∀ fs, x ≠ .mul fs := by
  intro x hx fs
  rcases mem_emitsE.mp hx with ⟨p, hp1, hp2, rfl⟩
  exact emitGroup_not_mul p.1 p.2 fs

theorem isSimp_rebuild {G : List (Expr × Int)}
    (hkeys : ∀ p ∈ G, keyOf p.1 = (p.1, 1))
    (hbase : ∀ p ∈ G, IsSimpB p.1 = true)
    (hsort : KSorted G) :
    IsSimpB (rebuild G) = true := by
  rw [rebuild_eq]
  by_cases hq : foldQ G = 0
  · rw [if_pos hq]
    exact isSimpB_int 0
  rw [if_neg hq]
  have hmem : ∀ x ∈ repFactors (foldQ G) ++ emitsE G, IsSimpB x = true := by
    intro x hx
    rcases List.mem_append.mp hx with h | h
    · exact isSimp_repFactors _ x h
    · exact isSimp_emitsE hkeys hbase x h
  have hnm : ∀ x ∈ repFactors (foldQ G) ++ emitsE G, ∀ fs, x ≠ .mul fs := by
    intro x hx
    rcases List.mem_append.mp hx with h | h
    · exact repFactors_not_mul _ x h
    · exact emitsE_not_mul x h
  rcases hsh : repFactors (foldQ G) ++ emitsE G with _ | ⟨a, _ | ⟨b, rest⟩⟩
  · exact isSimpB_int 1
  · show IsSimpB a = true
    exact hmem a (by rw [hsh]; exact List.mem_singleton.mpr rfl)
  · show IsSimpB (.mul (sortE (a :: b :: rest))) = true
    have hperm : List.Perm (sortE (a :: b :: rest)) (a :: b :: rest) :=
      sortE_perm _
    have hmem2 : ∀ x ∈ sortE (a :: b :: rest), IsSimpB x = true := by
      intro x hx
      exact hmem x (by rw [hsh]; exact hperm.mem_iff.mp hx)
    have hnm2 : ∀ x ∈ sortE (a :: b :: rest), ∀ fs, x ≠ .mul fs := by
      intro x hx
      exact hnm x (by rw [hsh]; exact hperm.mem_iff.mp hx)
    rw [isSimpB_mul, Bool.and_eq_true]
    refine ⟨(isSimpL_iff _).mpr hmem2, ?_⟩
    rw [decide_eq_true_eq]
    unfold simplifyMul
    rw [flattenOps_id fun x hx => splice_of_not_mul (hnm2 x hx)]
    rw [gather_perm hperm, ← hsh, rebuild_regather hkeys hsort hq]
    rw [rebuild_eq, if_neg hq, hsh]
    rfl

theorem isSimp_simplifyMul {L : List Expr}
    (h : ∀ x ∈ L, IsSimpB x = true) :
    IsSimpB (simplifyMul L) = true := by
  unfold simplifyMul
  refine isSimp_rebuild ?_ ?_ (gather_ksorted _)
  · intro p hp
    have hb : p.1 ∈ (gather (flattenOps L)).map Prod.fst :=
      List.mem_map.mpr ⟨p, hp, rfl⟩
    rcases List.mem_map.mp (mem_gather_bases hb) with ⟨y, hy, hky⟩
    rw [← hky]
    exact keyOf_base_irreducible y
  · intro p hp
    have hb : p.1 ∈ (gather (flattenOps L)).map Prod.fst :=
      List.mem_map.mpr ⟨p, hp, rfl⟩
    rcases List.mem_map.mp (mem_gather_bases hb) with ⟨y, hy, hky⟩
    rw [← hky]
    exact isSimp_keyBase y (isSimp_flattenOps h y hy)

theorem keyOf_pow_int (a : Expr) (k : Int) :
    keyOf (.pow a (.integer k)) = ((keyOf a).1, k * (keyOf a).2) := rfl

theorem isSimp_simplifyPow {a m : Expr}
    (ha : IsSimpB a = true) (hm : IsSimpB m = true) :
    IsSimpB (simplifyPow a m) = true := by
  by_cases hint : ∃ k, m = .integer k
  · rcases hint with ⟨k, rfl⟩
    rw [simplifyPow_int]
    rcases hgf : groupFold (keyOf (.pow a (.integer k))).1
        (keyOf (.pow a (.integer k))).2 with _ | v
    · show IsSimpB (emitGroup (keyOf (.pow a (.integer k))).1
        (keyOf (.pow a (.integer k))).2) = true
      have hb1 : (keyOf (.pow a (.integer k))).1 = (keyOf a).1 := by
        rw [keyOf_pow_int]
      rw [hb1]
      refine isSimp_emitGroup ?_ (isSimp_keyBase a ha) ?_
      · exact keyOf_base_irreducible a
      · rw [← hb1]
        exact hgf
    · show IsSimpB (ratLit v) = true
      exact isSimp_ratLit v
  · have he : simplifyPow a m = .pow a m := by
      cases m with
      | integer k => exact absurd ⟨k, rfl⟩ hint
      | real q => rfl
      | sym s v => rfl
      | add l => rfl
      | mul l => rfl
      | pow u w => rfl
      | log u w => rfl
    rw [he, isSimpB_pow, Bool.and_eq_true, Bool.and_eq_true,
      decide_eq_true_eq]
    exact ⟨⟨ha, hm⟩, he⟩

/-- The per-value contribution of opposite-term cancellation. -/
def coChunk (s : List Expr) (x : Expr) : List Expr :=
  if negE (negE x) ≠ x then List.replicate (s.count x) x
  else if negE x = x then List.replicate (s.count x % 2) x
  else if negE x ∈ s → cmpE x (negE x) = .lt then
    List.replicate (s.count x - s.count (negE x)) x ++
      List.replicate (s.count (negE x) - s.count x) (negE x)
  else []

theorem cancelOpposites_eq (s : List Expr) :
    cancelOpposites s = (sortE s).dedup.flatMap (coChunk s) := rfl

theorem count_flatMap (y : Expr) (f : Expr → List Expr) (l : List Expr) :
    ((l.flatMap f).count y) = (l.map fun x => (f x).count y).sum := by
  induction l with
  | nil => rfl
  | cons x xs ih =>
      rw [List.flatMap_cons, List.count_append, List.map_cons,
        List.sum_cons, ih]

theorem sum_map_zero {l : List Expr} {g : Expr → Nat}
    (h : ∀ x ∈ l, g x = 0) : (l.map g).sum = 0 := by
  induction l with
  | nil => rfl
  | cons x xs ih =>
      rw [List.map_cons, List.sum_cons, h x (List.mem_cons_self x xs),
        ih fun z hz => h z (List.mem_cons_of_mem x hz)]

theorem sum_map_single {l : List Expr} {g : Expr → Nat} {y : Expr}
    (hnd : l.Nodup) (hz : ∀ x ∈ l, x ≠ y → g x = 0) :
    (l.map g).sum = if y ∈ l then g y else 0 := by
  induction l with
  | nil => rfl
  | cons x xs ih =>
      rw [List.map_cons, List.sum_cons]
      rcases List.nodup_cons.mp hnd with ⟨hx, hnd2⟩
      by_cases hxy : x = y
      · subst hxy
        rw [if_pos (List.mem_cons_self x xs)]
        have h0 : (xs.map g).sum = 0 :=
          sum_map_zero fun z hz2 =>
            hz z (List.mem_cons_of_mem x hz2) fun he => hx (he ▸ hz2)
        rw [h0, Nat.add_zero]
      · rw [hz x (List.mem_cons_self x xs) hxy,
          ih hnd2 fun z hz2 => hz z (List.mem_cons_of_mem x hz2),
          Nat.zero_add]
        by_cases h : y ∈ xs
        · rw [if_pos h, if_pos (List.mem_cons_of_mem x h)]
        · rw [if_neg h,
            if_neg fun hm => (List.mem_cons.mp hm).elim
              (fun he => hxy he.symm) h]

theorem sum_map_double {l : List Expr} {g : Expr → Nat} {y z : Expr}
    (hyz : y ≠ z) (hnd : l.Nodup)
    (hz : ∀ x ∈ l, x ≠ y → x ≠ z → g x = 0) :
    (l.map g).sum =
      (if y ∈ l then g y else 0) + (if z ∈ l then g z else 0) := by
  induction l with
  | nil => rfl
  | cons x xs ih =>
      rw [List.map_cons, List.sum_cons]
      rcases List.nodup_cons.mp hnd with ⟨hx, hnd2⟩
      have hstep := ih hnd2 fun w hw => hz w (List.mem_cons_of_mem x hw)
      by_cases hxy : x = y
      · subst hxy
        have hsum : (xs.map g).sum = if z ∈ xs then g z else 0 :=
          sum_map_single hnd2 fun w hw hwz =>
            hz w (List.mem_cons_of_mem x hw)
              (fun he => hx (he ▸ hw)) hwz
        rw [hsum, if_pos (List.mem_cons_self x xs)]
        by_cases h : z ∈ xs
        · rw [if_pos (List.mem_cons_of_mem x h), if_pos h]
        · rw [if_neg fun hm => (List.mem_cons.mp hm).elim
            (fun he => hyz he.symm) h, if_neg h]
      by_cases hxz : x = z
      · subst hxz
        have hsum : (xs.map g).sum = if y ∈ xs then g y else 0 :=
          sum_map_single hnd2 fun w hw hwy =>
            hz w (List.mem_cons_of_mem x hw) hwy
              fun he => hx (he ▸ hw)
        rw [hsum, if_pos (List.mem_cons_self x xs)]
        by_cases h : y ∈ xs
        · rw [if_pos (List.mem_cons_of_mem x h), if_pos h]
          rw [Nat.add_comm]
        · rw [if_neg fun hm => (List.mem_cons.mp hm).elim
            (fun he => hxy he.symm) h, if_neg h]
          rw [Nat.add_comm]
      · rw [hz x (List.mem_cons_self x xs) hxy hxz, hstep, Nat.zero_add]
        have hy2 : y ∈ x :: xs ↔ y ∈ xs := by
          rw [List.mem_cons]
          exact or_iff_right fun he => hxy he.symm
        have hz2 : z ∈ x :: xs ↔ z ∈ xs := by
          rw [List.mem_cons]
          exact or_iff_right fun he => hxz he.symm
        by_cases h1 : y ∈ xs
        · rw [if_pos h1, if_pos (hy2.mpr h1)]
          by_cases h2 : z ∈ xs
          · rw [if_pos h2, if_pos (hz2.mpr h2)]
          · rw [if_neg h2, if_neg fun hm => h2 (hz2.mp hm)]
        · rw [if_neg h1, if_neg fun hm => h1 (hy2.mp hm)]
          by_cases h2 : z ∈ xs
          · rw [if_pos h2, if_pos (hz2.mpr h2)]
          · rw [if_neg h2, if_neg fun hm => h2 (hz2.mp hm)]

theorem mem_coChunk {s : List Expr} {x w : Expr} (hw : w ∈ coChunk s x) :
    w = x ∨ w = negE x := by
  unfold coChunk at hw
  by_cases h1 : negE (negE x) ≠ x
  · rw [if_pos h1] at hw
    exact Or.inl (List.eq_of_mem_replicate hw)
  rw [if_neg h1] at hw
  by_cases h2 : negE x = x
  · rw [if_pos h2] at hw
    exact Or.inl (List.eq_of_mem_replicate hw)
  rw [if_neg h2] at hw
  by_cases h3 : negE x ∈ s → cmpE x (negE x) = .lt
  · rw [if_pos h3] at hw
    rcases List.mem_append.mp hw with h | h
    · exact Or.inl (List.eq_of_mem_replicate h)
    · exact Or.inr (List.eq_of_mem_replicate h)
  · rw [if_neg h3] at hw
    cases hw

theorem mem_cancelOpposites {s : List Expr} {y : Expr}
    (hy : y ∈ cancelOpposites s) : y ∈ s := by
  rw [cancelOpposites_eq] at hy
  rcases List.mem_flatMap.mp hy with ⟨x, hx, hyx⟩
  have hxs : x ∈ s := (sortE_perm s).mem_iff.mp (List.mem_dedup.mp hx)
  unfold coChunk at hyx
  by_cases h1 : negE (negE x) ≠ x
  · rw [if_pos h1] at hyx
    rw [List.eq_of_mem_replicate hyx]
    exact hxs
  rw [if_neg h1] at hyx
  by_cases h2 : negE x = x
  · rw [if_pos h2] at hyx
    rw [List.eq_of_mem_replicate hyx]
    exact hxs
  rw [if_neg h2] at hyx
  by_cases h3 : negE x ∈ s → cmpE x (negE x) = .lt
  · rw [if_pos h3] at hyx
    rcases List.mem_append.mp hyx with h | h
    · rw [List.eq_of_mem_replicate h]
      exact hxs
    · rcases List.mem_replicate.mp h with ⟨hn, rfl⟩
      have hpos : 0 < s.count (negE x) := by omega
      exact List.count_pos_iff.mp hpos
  · rw [if_neg h3] at hyx
    cases hyx

theorem flatMap_congr_fun {l : List Expr} {f g : Expr → List Expr}
    (h : ∀ x ∈ l, f x = g x) : l.flatMap f = l.flatMap g := by
  induction l with
  | nil => rfl
  | cons x xs ih =>
      rw [List.flatMap_cons, List.flatMap_cons,
        h x (List.mem_cons_self x xs),
        ih fun z hz => h z (List.mem_cons_of_mem x hz)]

theorem coChunk_perm_eq {s t : List Expr} (h : List.Perm s t) (x : Expr) :
    coChunk s x = coChunk t x := by
  unfold coChunk
  by_cases h1 : negE (negE x) ≠ x
  · rw [if_pos h1, if_pos h1, h.count_eq]
  rw [if_neg h1, if_neg h1]
  by_cases h2 : negE x = x
  · rw [if_pos h2, if_pos h2, h.count_eq]
  rw [if_neg h2, if_neg h2]
  have hc3 : (negE x ∈ s → cmpE x (negE x) = .lt) ↔
      (negE x ∈ t → cmpE x (negE x) = .lt) := by
    rw [h.mem_iff]
  by_cases h3 : negE x ∈ s → cmpE x (negE x) = .lt
  · rw [if_pos h3, if_pos (hc3.mp h3), h.count_eq, h.count_eq]
  · rw [if_neg h3, if_neg fun hh => h3 (hc3.mpr hh)]

theorem cancelOpposites_perm_eq {s t : List Expr} (h : List.Perm s t) :
    cancelOpposites s = cancelOpposites t := by
  rw [cancelOpposites_eq, cancelOpposites_eq, sortE_eq_of_perm h]
  exact flatMap_congr_fun fun x hx => coChunk_perm_eq h x

theorem count_cancelOpposites (s : List Expr) (v : Expr) :
    (cancelOpposites s).count v =
      if negE (negE v) ≠ v then s.count v
      else if negE v = v then s.count v % 2
      else s.count v - s.count (negE v) := by
  rw [cancelOpposites_eq, count_flatMap]
  have hnd : (sortE s).dedup.Nodup := List.nodup_dedup _
  have hmem : ∀ w : Expr, w ∈ (sortE s).dedup ↔ w ∈ s := by
    intro w
    rw [List.mem_dedup]
    exact (sortE_perm s).mem_iff
  have hcount0 : ∀ w : Expr, w ∉ s → s.count w = 0 := fun w hw =>
    List.count_eq_zero.mpr hw
  by_cases hinv : negE (negE v) ≠ v
  · have hz : ∀ x ∈ (sortE s).dedup, x ≠ v →
        ((coChunk s x).count v) = 0 := by
      intro x hx hxv
      rw [List.count_eq_zero]
      intro hvc
      rcases mem_coChunk hvc with rfl | rfl
      · exact hxv rfl
      · unfold coChunk at hvc
        by_cases h1 : negE (negE x) ≠ x
        · rw [if_pos h1] at hvc
          exact hxv (List.eq_of_mem_replicate hvc).symm
        · exact hinv (congrArg negE (not_ne_iff.mp h1))
    rw [sum_map_single hnd hz, if_pos hinv]
    by_cases hvs : v ∈ s
    · have hchunk : (coChunk s v).count v = s.count v := by
        unfold coChunk
        rw [if_pos hinv, List.count_replicate, if_pos (beq_self_eq_true v)]
      rw [if_pos ((hmem v).mpr hvs), hchunk]
    · rw [if_neg (fun h => hvs ((hmem v).mp h)), hcount0 v hvs]
  have hinv2 : negE (negE v) = v := not_ne_iff.mp hinv
  by_cases hsn : negE v = v
  · have hz : ∀ x ∈ (sortE s).dedup, x ≠ v →
        ((coChunk s x).count v) = 0 := by
      intro x hx hxv
      rw [List.count_eq_zero]
      intro hvc
      rcases mem_coChunk hvc with rfl | rfl
      · exact hxv rfl
      · unfold coChunk at hvc
        by_cases h1 : negE (negE x) ≠ x
        · rw [if_pos h1] at hvc
          exact hxv (List.eq_of_mem_replicate hvc).symm
        · have h1e : negE (negE x) = x := not_ne_iff.mp h1
          exact hxv (h1e.symm.trans hsn)
    have hnotinv : ¬(negE (negE v) ≠ v) := fun h => h hinv2
    rw [sum_map_single hnd hz, if_neg hnotinv, if_pos hsn]
    by_cases hvs : v ∈ s
    · have hchunk : (coChunk s v).count v = s.count v % 2 := by
        unfold coChunk
        rw [if_neg (fun h => h hinv2), if_pos hsn, List.count_replicate,
          if_pos (beq_self_eq_true v)]
      rw [if_pos ((hmem v).mpr hvs), hchunk]
    · rw [if_neg (fun h => hvs ((hmem v).mp h)), hcount0 v hvs]
  · -- the involutive, non-self-negating case: the pair (v, negE v)
    have hvu : v ≠ negE v := fun h => hsn h.symm
    have hz : ∀ x ∈ (sortE s).dedup, x ≠ v → x ≠ negE v →
        ((coChunk s x).count v) = 0 := by
      intro x hx hxv hxu
      rw [List.count_eq_zero]
      intro hvc
      rcases mem_coChunk hvc with rfl | rfl
      · exact hxv rfl
      · unfold coChunk at hvc
        by_cases h1 : negE (negE x) ≠ x
        · rw [if_pos h1] at hvc
          exact hxv (List.eq_of_mem_replicate hvc).symm
        · exact hxu (not_ne_iff.mp h1).symm
    have hnotinv : ¬(negE (negE v) ≠ v) := fun h => h hinv2
    rw [sum_map_double hvu hnd hz, if_neg hnotinv, if_neg hsn]
    have hcv : (coChunk s v).count v =
        if negE v ∈ s → cmpE v (negE v) = .lt
        then s.count v - s.count (negE v) else 0 := by
      unfold coChunk
      have hnotinv : ¬(negE (negE v) ≠ v) := fun h => h hinv2
      rw [if_neg hnotinv, if_neg hsn]
      by_cases hc : negE v ∈ s → cmpE v (negE v) = .lt
      · rw [if_pos hc, if_pos hc, List.count_append,
          List.count_replicate, if_pos (beq_self_eq_true v),
          List.count_replicate,
          if_neg (fun h => hvu (eq_of_beq h).symm), Nat.add_zero]
      · rw [if_neg hc, if_neg hc, List.count_nil]
    have hcu : (coChunk s (negE v)).count v =
        if v ∈ s → cmpE (negE v) v = .lt
        then s.count v - s.count (negE v) else 0 := by
      unfold coChunk
      rw [if_neg (fun h => hsn (hinv2.symm.trans h).symm)]
      rw [if_neg (fun h => h (congrArg negE hinv2))]
      rw [hinv2]
      by_cases hc : v ∈ s → cmpE (negE v) v = .lt
      · rw [if_pos hc, if_pos hc, List.count_append,
          List.count_replicate,
          if_neg (fun h => hvu (eq_of_beq h).symm),
          List.count_replicate, if_pos (beq_self_eq_true v), Nat.zero_add]
      · rw [if_neg hc, if_neg hc, List.count_nil]
    by_cases hvs : v ∈ s
    · rw [if_pos ((hmem v).mpr hvs), hcv]
      by_cases hus : negE v ∈ s
      · rw [if_pos ((hmem _).mpr hus), hcu]
        rcases hcmp : cmpE v (negE v) with _ | _ | _
        · have h1 : negE v ∈ s → Ordering.lt = Ordering.lt := fun h2 => rfl
          have hcuf : ¬(v ∈ s → cmpE (negE v) v = .lt) := by
            intro h
            have h2 := cmpE_lt_asymm hcmp
            exact Ordering.noConfusion ((h hvs).symm.trans h2)
          rw [if_pos h1, if_neg hcuf, Nat.add_zero]
        · exact absurd ((cmpE_eq_iff _ _).mp hcmp) hvu
        · have h1 : ¬(negE v ∈ s → Ordering.gt = Ordering.lt) :=
            fun h => Ordering.noConfusion (h hus)
          have h2 : v ∈ s → cmpE (negE v) v = .lt :=
            fun h3 => cmpE_gt_iff_lt.mp hcmp
          rw [if_neg h1, Nat.zero_add, if_pos h2]
      · have h1 : negE v ∈ s → cmpE v (negE v) = .lt :=
          fun h2 => absurd h2 hus
        rw [if_neg (fun h => hus ((hmem _).mp h)), Nat.add_zero,
          if_pos h1]
    · rw [if_neg (fun h => hvs ((hmem v).mp h)), Nat.zero_add]
      by_cases hus : negE v ∈ s
      · have h1 : v ∈ s → cmpE (negE v) v = .lt :=
          fun h2 => absurd h2 hvs
        rw [if_pos ((hmem _).mpr hus), hcu, if_pos h1]
      · rw [if_neg (fun h => hus ((hmem _).mp h)), hcount0 v hvs,
          Nat.zero_sub]

theorem cancelOpposites_perm_self {t : List Expr}
    (h1 : ∀ x ∈ t, negE (negE x) = x → negE x ≠ x → negE x ∉ t)
    (h2 : ∀ x ∈ t, negE x = x → t.count x ≤ 1) :
    List.Perm (cancelOpposites t) t := by
  rw [List.perm_iff_count]
  intro v
  rw [count_cancelOpposites]
  by_cases hinv : negE (negE v) ≠ v
  · rw [if_pos hinv]
  rw [if_neg hinv]
  have hinv2 : negE (negE v) = v := not_ne_iff.mp hinv
  by_cases hsn : negE v = v
  · rw [if_pos hsn]
    by_cases hvt : v ∈ t
    · have := h2 v hvt hsn
      omega
    · rw [List.count_eq_zero.mpr hvt]
  · rw [if_neg hsn]
    by_cases hvt : v ∈ t
    · have hnot := h1 v hvt hinv2 hsn
      rw [List.count_eq_zero.mpr hnot, Nat.sub_zero]
    · rw [List.count_eq_zero.mpr hvt, Nat.zero_sub]

theorem cancel_nc1 {s : List Expr} {x : Expr} (hx : x ∈ cancelOpposites s)
    (hi : negE (negE x) = x) (hn : negE x ≠ x) :
    negE x ∉ cancelOpposites s := by
  intro hmem
  have hp1 : 0 < (cancelOpposites s).count x := List.count_pos_iff.mpr hx
  have hp2 : 0 < (cancelOpposites s).count (negE x) :=
    List.count_pos_iff.mpr hmem
  rw [count_cancelOpposites, if_neg (fun h => h hi), if_neg hn] at hp1
  have hi2 : negE (negE (negE x)) = negE x := congrArg negE hi
  have hn2 : negE (negE x) ≠ negE x := fun h =>
    hn (hi.symm.trans h).symm
  rw [count_cancelOpposites, if_neg (fun h => h hi2), if_neg hn2, hi]
    at hp2
  omega

theorem cancel_nc2 {s : List Expr} {x : Expr} (hsn : negE x = x) :
    (cancelOpposites s).count x ≤ 1 := by
  rw [count_cancelOpposites]
  have hi : negE (negE x) = x := by rw [hsn, hsn]
  rw [if_neg (fun h => h hi), if_pos hsn]
  omega

theorem cancel_idem (s : List Expr) :
    List.Perm (cancelOpposites (cancelOpposites s)) (cancelOpposites s) :=
  cancelOpposites_perm_self
    (fun x hx hi hn => cancel_nc1 hx hi hn)
    (fun x hx hs => cancel_nc2 hs)

theorem flattenOps_singleton (x : Expr) : flattenOps [x] = splice x := by
  show splice x ++ [] = splice x
  rw [List.append_nil]

theorem addNumVal_eq (x : Expr) :
    addNumVal x =
      if (emitsE (gather (flattenOps [x]))).isEmpty
      then some (foldQ (gather (flattenOps [x]))) else none := rfl

theorem addNumVal_ratLit (q : ℚ) : addNumVal (ratLit q) = some q := by
  by_cases h1 : q = 1
  · subst h1
    rw [ratLit_one, addNumVal_eq]
    rw [show flattenOps [Expr.integer 1] = [Expr.integer 1] from rfl]
    rw [show gather [Expr.integer 1] = [(Expr.integer 1, 1)] from rfl]
    simp [emitsE, foldQ, groupFold]
  · have hga : gather (flattenOps [ratLit q]) = gather (repFactors q) := by
      apply gather_perm
      unfold ratLit
      rcases hshape : repFactors q with _ | ⟨a, _ | ⟨b, rest⟩⟩
      · exfalso
        unfold repFactors at hshape
        rw [if_neg h1] at hshape
        by_cases h2 : q.den = 1
        · rw [if_pos h2] at hshape
          cases hshape
        rw [if_neg h2] at hshape
        by_cases h3 : q.num = 1
        · rw [if_pos h3] at hshape
          cases hshape
        · rw [if_neg h3] at hshape
          cases hshape
      · have hnm : ∀ fs, a ≠ .mul fs := fun fs =>
          repFactors_not_mul q a
            (by rw [hshape]; exact List.mem_singleton.mpr rfl) fs
        show List.Perm (flattenOps [a]) [a]
        rw [flattenOps_singleton, splice_of_not_mul hnm]
      · show List.Perm (flattenOps [Expr.mul (sortE (a :: b :: rest))])
          (a :: b :: rest)
        rw [flattenOps_singleton]
        show List.Perm (sortE (a :: b :: rest)) (a :: b :: rest)
        exact sortE_perm _
    rw [addNumVal_eq, hga]
    obtain ⟨hfold, hemits⟩ := gather_content_of_dkeys (repFactors_dkeys q)
    have hemits2 : emitsE (gather (repFactors q)) = [] := by
      apply List.Perm.eq_nil
      refine hemits.trans ?_
      rw [show (repFactors q).filter isNonFold = [] from
        List.filter_eq_nil_iff.mpr (by
          intro a ha
          simp [repFactors_nonfold q a ha])]
      simp
    rw [hemits2, hfold, repFactors_prod]
    rfl

theorem simplifyAdd_eq (L : List Expr) :
    simplifyAdd L =
      assembleAdd
        ((if ((L.filterMap addNumVal).sum : ℚ) = 0 then ([] : List Expr)
          else [ratLit (L.filterMap addNumVal).sum]) ++
          cancelOpposites (L.filter fun x => (addNumVal x).isNone)) := rfl

theorem filterMap_addNumVal_of_none {L : List Expr}
    (h : ∀ x ∈ L, (addNumVal x).isNone = true) :
    L.filterMap addNumVal = [] := by
  induction L with
  | nil => rfl
  | cons x xs ih =>
      rw [List.filterMap_cons,
        Option.isNone_iff_eq_none.mp (h x (List.mem_cons_self x xs)),
        ih fun z hz => h z (List.mem_cons_of_mem x hz)]

theorem kept_subset {L : List Expr} {y : Expr}
    (hy : y ∈ cancelOpposites (L.filter fun x => (addNumVal x).isNone)) :
    y ∈ L ∧ (addNumVal y).isNone = true := by
  have h2 := mem_cancelOpposites hy
  exact ⟨(List.mem_filter.mp h2).1, (List.mem_filter.mp h2).2⟩

theorem isSimp_simplifyAdd {l : List Expr}
    (h : ∀ x ∈ l, IsSimpB x = true) :
    IsSimpB (simplifyAdd l) = true := by
  rw [simplifyAdd_eq]
  have hmemD : ∀ y ∈
      (if ((l.filterMap addNumVal).sum : ℚ) = 0 then ([] : List Expr)
        else [ratLit (l.filterMap addNumVal).sum]) ++
        cancelOpposites (l.filter fun x => (addNumVal x).isNone),
      IsSimpB y = true := by
    intro y hy
    rcases List.mem_append.mp hy with h2 | h2
    · by_cases hq : ((l.filterMap addNumVal).sum : ℚ) = 0
      · rw [if_pos hq] at h2
        cases h2
      · rw [if_neg hq] at h2
        rw [List.eq_of_mem_singleton h2]
        exact isSimp_ratLit _
    · exact h y (kept_subset h2).1
  rcases hsh : (if ((l.filterMap addNumVal).sum : ℚ) = 0
      then ([] : List Expr)
      else [ratLit (l.filterMap addNumVal).sum]) ++
      cancelOpposites (l.filter fun x => (addNumVal x).isNone)
    with _ | ⟨a, _ | ⟨b, rest⟩⟩
  · exact isSimpB_int 0
  · show IsSimpB a = true
    exact hmemD a (by rw [hsh]; exact List.mem_singleton.mpr rfl)
  · show IsSimpB (.add (sortE (a :: b :: rest))) = true
    have hperm : List.Perm (sortE (a :: b :: rest)) (a :: b :: rest) :=
      sortE_perm _
    have hmem2 : ∀ x ∈ sortE (a :: b :: rest), IsSimpB x = true := by
      intro x hx
      exact hmemD x (by rw [hsh]; exact hperm.mem_iff.mp hx)
    rw [isSimpB_add, Bool.and_eq_true]
    refine ⟨(isSimpL_iff _).mpr hmem2, ?_⟩
    rw [decide_eq_true_eq]
    -- the canonical sum is a fixed point of simplifyAdd
    have hpermD : List.Perm (sortE (a :: b :: rest))
        ((if ((l.filterMap addNumVal).sum : ℚ) = 0 then ([] : List Expr)
          else [ratLit (l.filterMap addNumVal).sum]) ++
          cancelOpposites (l.filter fun x => (addNumVal x).isNone)) := by
      rw [hsh]
      exact hperm
    -- value content of the re-decomposition
    have hnum : (List.filterMap addNumVal
        (sortE (a :: b :: rest))).sum = (l.filterMap addNumVal).sum := by
      rw [(hpermD.filterMap addNumVal).sum_eq, List.filterMap_append]
      have hkept0 : List.filterMap addNumVal
          (cancelOpposites (l.filter fun x => (addNumVal x).isNone)) =
          [] :=
        filterMap_addNumVal_of_none fun x hx => (kept_subset hx).2
      rw [hkept0, List.append_nil]
      by_cases hq : ((l.filterMap addNumVal).sum : ℚ) = 0
      · rw [if_pos hq, hq]
        rfl
      · rw [if_neg hq, List.filterMap_cons, addNumVal_ratLit]
        rw [show List.filterMap addNumVal [] = [] from rfl]
        rw [List.sum_cons, List.sum_nil, add_zero]
    -- the non-numeric residue of the re-decomposition
    have hres : List.Perm
        (List.filter (fun x => (addNumVal x).isNone)
          (sortE (a :: b :: rest)))
        (cancelOpposites (l.filter fun x => (addNumVal x).isNone)) := by
      refine (hpermD.filter _).trans ?_
      rw [List.filter_append]
      have hn1 : List.filter (fun x => (addNumVal x).isNone)
          (if ((l.filterMap addNumVal).sum : ℚ) = 0 then ([] : List Expr)
            else [ratLit (l.filterMap addNumVal).sum]) = [] := by
        by_cases hq : ((l.filterMap addNumVal).sum : ℚ) = 0
        · rw [if_pos hq]
          rfl
        · rw [if_neg hq]
          rw [List.filter_eq_nil_iff]
          intro a2 ha2
          rw [List.eq_of_mem_singleton ha2]
          simp [addNumVal_ratLit]
      have hn2 : List.filter (fun x => (addNumVal x).isNone)
          (cancelOpposites (l.filter fun x => (addNumVal x).isNone)) =
          cancelOpposites (l.filter fun x => (addNumVal x).isNone) := by
        rw [List.filter_eq_self]
        intro y hy
        exact (kept_subset hy).2
      rw [hn1, hn2, List.nil_append]
    rw [simplifyAdd_eq, hnum]
    have hcanc : cancelOpposites
        (List.filter (fun x => (addNumVal x).isNone)
          (sortE (a :: b :: rest))) =
        cancelOpposites (cancelOpposites
          (l.filter fun x => (addNumVal x).isNone)) :=
      cancelOpposites_perm_eq hres
    rw [hcanc]
    -- the rebuilt operand list is a permutation of the original one
    have hfinal : List.Perm
        ((if ((l.filterMap addNumVal).sum : ℚ) = 0 then ([] : List Expr)
          else [ratLit (l.filterMap addNumVal).sum]) ++
          cancelOpposites (cancelOpposites
            (l.filter fun x => (addNumVal x).isNone)))
        (a :: b :: rest) := by
      refine (List.Perm.append_left _ (cancel_idem _)).trans ?_
      rw [hsh]
    rcases hsh2 : (if ((l.filterMap addNumVal).sum : ℚ) = 0
        then ([] : List Expr)
        else [ratLit (l.filterMap addNumVal).sum]) ++
        cancelOpposites (cancelOpposites
          (l.filter fun x => (addNumVal x).isNone))
      with _ | ⟨c, _ | ⟨d, rest2⟩⟩
    · rw [hsh2] at hfinal
      exact absurd hfinal.length_eq (by simp)
    · rw [hsh2] at hfinal
      exact absurd hfinal.length_eq (by simp)
    · rw [hsh2] at hfinal
      show Expr.add (sortE (c :: d :: rest2)) = _
      rw [sortE_eq_of_perm hfinal]

theorem simplifyList_eq_map (l : List Expr) :
    simplifyList l = l.map simplify := by
  induction l with
  | nil => simp [simplifyList]
  | cons x xs ih => simp [simplifyList, ih]

theorem map_simplify_id {l : List Expr} (h : ∀ x ∈ l, simplify x = x) :
    l.map simplify = l := by
  induction l with
  | nil => rfl
  | cons x xs ih =>
      rw [List.map_cons, h x (List.mem_cons_self x xs),
        ih fun z hz => h z (List.mem_cons_of_mem x hz)]

theorem simplify_int (n : Int) : simplify (.integer n) = .integer n := by
  simp [simplify]

theorem simplify_real (q : ℚ) : simplify (.real q) = .real q := by
  simp [simplify]

theorem simplify_sym (t : String) (v : Option ℚ) :
    simplify (.sym t v) = .sym t v := by
  simp [simplify]

theorem simplify_add (l : List Expr) :
    simplify (.add l) = simplifyAdd (simplifyList l) := by
  simp [simplify]

theorem simplify_mul (l : List Expr) :
    simplify (.mul l) = simplifyMul (simplifyList l) := by
  simp [simplify]

theorem simplify_pow (a b : Expr) :
    simplify (.pow a b) = simplifyPow (simplify a) (simplify b) := by
  simp [simplify]

theorem simplify_log (a b : Expr) :
    simplify (.log a b) = .log (simplify a) (simplify b) := by
  simp [simplify]

theorem simplify_of_isSimp :
    ∀ e : Expr, IsSimpB e = true → simplify e = e := by
  intro e
  induction e using Expr.myInduction with
  | hint n => intro h2; exact simplify_int n
  | hreal q => intro h2; exact simplify_real q
  | hsym s v => intro h2; exact simplify_sym s v
  | hadd l ih =>
      intro h2
      rw [isSimpB_add, Bool.and_eq_true, decide_eq_true_eq] at h2
      obtain ⟨hL, hfix⟩ := h2
      have hml : simplifyList l = l := by
        rw [simplifyList_eq_map]
        exact map_simplify_id fun x hx =>
          ih x hx ((isSimpL_iff l).mp hL x hx)
      rw [simplify_add, hml, hfix]
  | hmul l ih =>
      intro h2
      rw [isSimpB_mul, Bool.and_eq_true, decide_eq_true_eq] at h2
      obtain ⟨hL, hfix⟩ := h2
      have hml : simplifyList l = l := by
        rw [simplifyList_eq_map]
        exact map_simplify_id fun x hx =>
          ih x hx ((isSimpL_iff l).mp hL x hx)
      rw [simplify_mul, hml, hfix]
  | hpow a b iha ihb =>
      intro h2
      rw [isSimpB_pow, Bool.and_eq_true, Bool.and_eq_true,
        decide_eq_true_eq] at h2
      obtain ⟨⟨ha, hb⟩, hfix⟩ := h2
      rw [simplify_pow, iha ha, ihb hb, hfix]
  | hlog a b iha ihb =>
      intro h2
      rw [isSimpB_log, Bool.and_eq_true] at h2
      obtain ⟨ha, hb⟩ := h2
      rw [simplify_log, iha ha, ihb hb]

theorem isSimp_simplify : ∀ e : Expr, IsSimpB (simplify e) = true := by
  intro e
  induction e using Expr.myInduction with
  | hint n => rw [simplify_int]; exact isSimpB_int n
  | hreal q => rw [simplify_real]; exact isSimpB_real q
  | hsym s v => rw [simplify_sym]; exact isSimpB_sym s v
  | hadd l ih =>
      rw [simplify_add]
      refine isSimp_simplifyAdd ?_
      intro x hx
      rw [simplifyList_eq_map] at hx
      rcases List.mem_map.mp hx with ⟨y, hy, rfl⟩
      exact ih y hy
  | hmul l ih =>
      rw [simplify_mul]
      refine isSimp_simplifyMul ?_
      intro x hx
      rw [simplifyList_eq_map] at hx
      rcases List.mem_map.mp hx with ⟨y, hy, rfl⟩
      exact ih y hy
  | hpow a b iha ihb =>
      rw [simplify_pow]
      exact isSimp_simplifyPow iha ihb
  | hlog a b iha ihb =>
      rw [simplify_log, isSimpB_log, Bool.and_eq_true]
      exact ⟨iha, ihb⟩

/-- C2: `simplify` is idempotent — for every expression `e`,
`simplify (simplify e) = simplify e` (spec §4.4). -/
theorem C2_simplify_idempotent (e : Expr) :
    simplify (simplify e) = simplify e :=
  simplify_of_isSimp (simplify e) (isSimp_simplify e)

theorem foldQ_cons (r : Expr × Int) (L : List (Expr × Int)) :
    foldQ (r :: L) = (groupFold r.1 r.2).getD 1 * foldQ L := by
  simp [foldQ]

theorem emitsE_cons (r : Expr × Int) (L : List (Expr × Int)) :
    emitsE (r :: L) =
      (if (groupFold r.1 r.2).isNone = true
        then [emitGroup r.1 r.2] else []) ++ emitsE L := by
  unfold emitsE
  rw [List.filter_cons]
  by_cases hp : (groupFold r.1 r.2).isNone = true
  · simp [hp]
  · simp [hp]

theorem insert_neg1_content (G : List (Expr × Int)) :
    foldQ (insertKey (.integer (-1), 1) G) = -foldQ G ∧
    emitsE (insertKey (.integer (-1), 1) G) = emitsE G := by
  have hgf : groupFold (Expr.integer (-1)) 1 = some (-1 : ℚ) := by
    have hne : (-1 : Int) ≠ 0 := by norm_num
    simp [groupFold, hne]
  induction G with
  | nil =>
      rw [show insertKey (.integer (-1), 1) [] =
        [((Expr.integer (-1) : Expr), (1 : Int))] from rfl]
      constructor
      · rw [foldQ_cons, hgf]
        show (-1 : ℚ) * foldQ [] = -foldQ []
        rw [neg_one_mul]
      · rw [emitsE_cons, hgf]
        rfl
  | cons r rest ih =>
      rcases hc : cmpE (Expr.integer (-1)) r.1 with _ | _ | _
      · rw [show insertKey (.integer (-1), 1) (r :: rest) =
          (Expr.integer (-1), 1) :: r :: rest from by
            simp [insertKey, hc]]
        constructor
        · rw [foldQ_cons]
          show (groupFold (Expr.integer (-1)) 1).getD 1 * foldQ (r :: rest) =
            -foldQ (r :: rest)
          rw [hgf]
          show (-1 : ℚ) * foldQ (r :: rest) = -foldQ (r :: rest)
          rw [neg_one_mul]
        · rw [emitsE_cons]
          show (if (groupFold (Expr.integer (-1)) 1).isNone = true
            then [emitGroup (Expr.integer (-1)) 1] else []) ++
              emitsE (r :: rest) = emitsE (r :: rest)
          rw [hgf]
          rfl
      · have heq : Expr.integer (-1) = r.1 := (cmpE_eq_iff _ _).mp hc
        rw [show insertKey (.integer (-1), 1) (r :: rest) =
          (r.1, 1 + r.2) :: rest from by simp [insertKey, hc]]
        have hgr : ∀ k : Int, groupFold r.1 k = some ((-1 : ℚ) ^ k) := by
          intro k
          rw [← heq]
          have hne : (-1 : Int) ≠ 0 := by norm_num
          simp [groupFold, hne]
        constructor
        · rw [foldQ_cons, foldQ_cons]
          show (groupFold r.1 (1 + r.2)).getD 1 * foldQ rest =
            -((groupFold r.1 r.2).getD 1 * foldQ rest)
          rw [hgr, hgr]
          show (-1 : ℚ) ^ (1 + r.2) * foldQ rest =
            -((-1 : ℚ) ^ r.2 * foldQ rest)
          have hne : (-1 : ℚ) ≠ 0 := by norm_num
          rw [zpow_add₀ hne, zpow_one, neg_one_mul, neg_mul]
        · rw [emitsE_cons, emitsE_cons]
          show (if (groupFold r.1 (1 + r.2)).isNone = true
            then [emitGroup r.1 (1 + r.2)] else []) ++ emitsE rest =
            (if (groupFold r.1 r.2).isNone = true
              then [emitGroup r.1 r.2] else []) ++ emitsE rest
          rw [hgr, hgr]
          rfl
      · rw [show insertKey (.integer (-1), 1) (r :: rest) =
          r :: insertKey (.integer (-1), 1) rest from by
            simp [insertKey, hc]]
        constructor
        · rw [foldQ_cons, foldQ_cons, ih.1, mul_neg]
        · rw [emitsE_cons, emitsE_cons, ih.2]

theorem simplifyMul_perm {l₁ l₂ : List Expr} (h : List.Perm l₁ l₂) :
    simplifyMul l₁ = simplifyMul l₂ := by
  unfold simplifyMul
  rw [show flattenOps l₁ = l₁.flatMap splice from rfl,
    show flattenOps l₂ = l₂.flatMap splice from rfl,
    gather_perm (h.flatMap_right splice)]

theorem simplifyAdd_perm {l₁ l₂ : List Expr} (h : List.Perm l₁ l₂) :
    simplifyAdd l₁ = simplifyAdd l₂ := by
  rw [simplifyAdd_eq, simplifyAdd_eq,
    (h.filterMap addNumVal).sum_eq,
    cancelOpposites_perm_eq (h.filter fun x => (addNumVal x).isNone)]

theorem negE_eq (x : Expr) :
    negE x = rebuild (insertKey (.integer (-1), 1) (gather (splice x))) := by
  unfold negE simplifyMul
  rw [show flattenOps [Expr.integer (-1), x] =
    Expr.integer (-1) :: (splice x ++ []) from rfl, List.append_nil]
  rw [show gather (Expr.integer (-1) :: splice x) =
    insertKey (keyOf (.integer (-1))) (gather (splice x)) from by
      simp [gather]]
  rfl

theorem gather_hkeys (l : List Expr) :
    ∀ p ∈ gather l, keyOf p.1 = (p.1, 1) := by
  intro p hp
  have hb : p.1 ∈ (gather l).map Prod.fst := List.mem_map.mpr ⟨p, hp, rfl⟩
  rcases List.mem_map.mp (mem_gather_bases hb) with ⟨y, hy, hky⟩
  rw [← hky]
  exact keyOf_base_irreducible y

theorem perm_isEmpty {l₁ l₂ : List Expr} (h : List.Perm l₁ l₂) :
    l₁.isEmpty = l₂.isEmpty := by
  cases l₁ with
  | nil =>
      rw [← h.nil_eq]
  | cons a as =>
      cases l₂ with
      | nil => exact absurd h.eq_nil (List.cons_ne_nil a as)
      | cons b bs => rfl

theorem repFactors_eq_nil {q : ℚ} (h : repFactors q = []) : q = 1 := by
  by_contra h1
  unfold repFactors at h
  rw [if_neg h1] at h
  by_cases h2 : q.den = 1
  · rw [if_pos h2] at h
    cases h
  rw [if_neg h2] at h
  by_cases h3 : q.num = 1
  · rw [if_pos h3] at h
    cases h
  · rw [if_neg h3] at h
    cases h

theorem addNumVal_int (n : Int) : addNumVal (.integer n) = some ((n : ℚ)) := by
  rw [addNumVal_eq]
  rw [show flattenOps [Expr.integer n] = [Expr.integer n] from rfl]
  rw [show gather [Expr.integer n] = [(Expr.integer n, 1)] from rfl]
  by_cases hn : n = 0
  · subst hn
    simp [emitsE, foldQ, groupFold]
  · simp [emitsE, foldQ, groupFold, hn]

theorem emit_self {x : Expr} (hx : IsSimpB x = true)
    (hnm : ∀ fs, x ≠ .mul fs)
    (hnf : groupFold (keyOf x).1 (keyOf x).2 = none) :
    emitGroup (keyOf x).1 (keyOf x).2 = x := by
  cases x with
  | integer n => simp [keyOf, emitGroup]
  | real q => simp [keyOf, emitGroup]
  | sym t v => simp [keyOf, emitGroup]
  | add l => simp [keyOf, emitGroup]
  | mul fs => exact absurd rfl (hnm fs)
  | log a m => simp [keyOf, emitGroup]
  | pow a m =>
      cases m with
      | integer k =>
          rw [isSimpB_pow, Bool.and_eq_true, Bool.and_eq_true,
            decide_eq_true_eq] at hx
          have hfix := hx.2
          rw [simplifyPow_int, hnf] at hfix
          exact hfix
      | real q => simp [keyOf, emitGroup]
      | sym t v => simp [keyOf, emitGroup]
      | add l => simp [keyOf, emitGroup]
      | mul l => simp [keyOf, emitGroup]
      | pow u w => simp [keyOf, emitGroup]
      | log u w => simp [keyOf, emitGroup]

theorem simp_mul_factors {fs : List Expr}
    (hfix : simplifyMul fs = .mul fs) :
    (∀ y ∈ fs, ∀ g, y ≠ .mul g) ∧
      foldQ (gather (flattenOps fs)) ≠ 0 := by
  have hq : foldQ (gather (flattenOps fs)) ≠ 0 := by
    intro h0
    unfold simplifyMul at hfix
    rw [rebuild_eq, if_pos h0] at hfix
    cases hfix
  refine ⟨?_, hq⟩
  unfold simplifyMul at hfix
  rw [rebuild_eq, if_neg hq] at hfix
  have hnm : ∀ y ∈ repFactors (foldQ (gather (flattenOps fs))) ++
      emitsE (gather (flattenOps fs)), ∀ g, y ≠ .mul g := by
    intro y hy
    rcases List.mem_append.mp hy with h2 | h2
    · exact repFactors_not_mul _ y h2
    · exact emitsE_not_mul y h2
  rcases hsh : repFactors (foldQ (gather (flattenOps fs))) ++
      emitsE (gather (flattenOps fs)) with _ | ⟨a, _ | ⟨b, rest⟩⟩
  · rw [hsh] at hfix
    exact absurd hfix (by simp [assemble])
  · rw [hsh] at hfix
    have ha : a = .mul fs := hfix
    exact absurd ha (hnm a (by rw [hsh]; exact List.mem_singleton.mpr rfl) fs)
  · rw [hsh] at hfix
    have hfs : fs = sortE (a :: b :: rest) := by
      have h2 : Expr.mul (sortE (a :: b :: rest)) = .mul fs := hfix
      cases h2
      rfl
    intro y hy g
    have hy2 : y ∈ a :: b :: rest := by
      rw [hfs] at hy
      exact (sortE_perm _).mem_iff.mp hy
    exact hnm y (by rw [hsh]; exact hy2) g

theorem rebuild_splice_self {x : Expr} (hx : IsSimpB x = true)
    (hnone : addNumVal x = none) :
    rebuild (gather (splice x)) = x ∧
    foldQ (gather (splice x)) ≠ 0 ∧
    emitsE (gather (splice x)) ≠ [] := by
  have hne : ¬ (emitsE (gather (flattenOps [x]))).isEmpty = true := by
    intro h2
    rw [addNumVal_eq, if_pos h2] at hnone
    cases hnone
  rw [flattenOps_singleton] at hne
  have hemit_ne : emitsE (gather (splice x)) ≠ [] := fun h2 =>
    hne (by rw [h2]; rfl)
  by_cases hm : ∃ fs, x = .mul fs
  · rcases hm with ⟨fs, rfl⟩
    rw [show splice (.mul fs) = fs from rfl] at hemit_ne ⊢
    have hfix : simplifyMul fs = .mul fs := by
      rw [isSimpB_mul, Bool.and_eq_true, decide_eq_true_eq] at hx
      exact hx.2
    obtain ⟨hnm, hq⟩ := simp_mul_factors hfix
    have hfl : flattenOps fs = fs :=
      flattenOps_id fun y hy => splice_of_not_mul (hnm y hy)
    rw [hfl] at hq
    refine ⟨?_, hq, hemit_ne⟩
    have h3 := hfix
    unfold simplifyMul at h3
    rw [hfl] at h3
    exact h3
  · have hnm : ∀ fs, x ≠ .mul fs := fun fs h2 => hm ⟨fs, h2⟩
    rw [splice_of_not_mul hnm] at hemit_ne ⊢
    rw [show gather [x] = [keyOf x] from by simp [gather, insertKey]]
      at hemit_ne ⊢
    have hnf : groupFold (keyOf x).1 (keyOf x).2 = none := by
      rcases hgf : groupFold (keyOf x).1 (keyOf x).2 with _ | v
      · rfl
      · exact absurd (by rw [emitsE_cons, hgf]; rfl) hemit_ne
    have hfq : foldQ [keyOf x] = 1 := by
      rw [foldQ_cons, hnf]
      show (1 : ℚ) * foldQ [] = 1
      rw [show foldQ [] = 1 from rfl, mul_one]
    refine ⟨?_, by rw [hfq]; exact one_ne_zero, hemit_ne⟩
    rw [rebuild_eq, hfq, if_neg one_ne_zero]
    rw [show repFactors 1 = [] from by simp [repFactors]]
    rw [show emitsE [keyOf x] = [emitGroup (keyOf x).1 (keyOf x).2] from by
      rw [emitsE_cons, hnf]; rfl]
    rw [List.nil_append]
    show emitGroup (keyOf x).1 (keyOf x).2 = x
    exact emit_self hx hnm hnf

theorem splice_rebuild_content {G : List (Expr × Int)}
    (hkeys : ∀ p ∈ G, keyOf p.1 = (p.1, 1)) (hsort : KSorted G)
    (hq : foldQ G ≠ 0) :
    foldQ (gather (splice (rebuild G))) = foldQ G ∧
    List.Perm (emitsE (gather (splice (rebuild G)))) (emitsE G) := by
  rw [rebuild_eq, if_neg hq]
  by_cases hnil : repFactors (foldQ G) ++ emitsE G = []
  · obtain ⟨hr, he⟩ := List.append_eq_nil.mp hnil
    have hq1 : foldQ G = 1 := repFactors_eq_nil hr
    rw [hnil, show assemble ([] : List Expr) = Expr.integer 1 from rfl]
    rw [show splice (Expr.integer 1) = [Expr.integer 1] from rfl]
    rw [show gather [Expr.integer 1] = [(Expr.integer 1, 1)] from rfl]
    have hgf1 : groupFold (Expr.integer 1) 1 = some 1 := by
      norm_num [groupFold]
    constructor
    · rw [hq1, foldQ_cons, hgf1]
      show (1 : ℚ) * foldQ [] = 1
      rw [show foldQ ([] : List (Expr × Int)) = 1 from rfl, mul_one]
    · rw [he, show emitsE [(Expr.integer 1, (1 : Int))] = [] from by
        rw [emitsE_cons, hgf1]; rfl]
  · have hnm2 : ∀ y ∈ repFactors (foldQ G) ++ emitsE G,
        ∀ g, y ≠ .mul g := by
      intro y hy
      rcases List.mem_append.mp hy with h2 | h2
      · exact repFactors_not_mul _ y h2
      · exact emitsE_not_mul y h2
    have hgeq : gather
        (splice (assemble (repFactors (foldQ G) ++ emitsE G))) =
        gather (repFactors (foldQ G) ++ emitsE G) := by
      apply gather_perm
      rcases hsh : repFactors (foldQ G) ++ emitsE G
        with _ | ⟨a, _ | ⟨b, rest⟩⟩
      · exact absurd hsh hnil
      · show List.Perm (splice a) [a]
        rw [splice_of_not_mul fun g =>
          hnm2 a (by rw [hsh]; exact List.mem_singleton.mpr rfl) g]
      · show List.Perm (sortE (a :: b :: rest)) (a :: b :: rest)
        exact sortE_perm _
    exact ⟨by rw [hgeq]; exact regather_foldQ hkeys hsort hq,
      by rw [hgeq]; exact regather_emits hkeys hsort hq⟩

theorem addNumVal_rebuild {G : List (Expr × Int)}
    (hkeys : ∀ p ∈ G, keyOf p.1 = (p.1, 1)) (hsort : KSorted G)
    (hq : foldQ G ≠ 0) :
    addNumVal (rebuild G) =
      if (emitsE G).isEmpty = true then some (foldQ G) else none := by
  obtain ⟨h1, h2⟩ := splice_rebuild_content hkeys hsort hq
  rw [addNumVal_eq, flattenOps_singleton, h1, perm_isEmpty h2]

theorem addNumVal_negE_some {x : Expr} {qx : ℚ}
    (hsome : addNumVal x = some qx) :
    addNumVal (negE x) = some (-qx) := by
  have h1 : (emitsE (gather (flattenOps [x]))).isEmpty = true ∧
      foldQ (gather (flattenOps [x])) = qx := by
    rw [addNumVal_eq] at hsome
    by_cases h : (emitsE (gather (flattenOps [x]))).isEmpty = true
    · rw [if_pos h] at hsome
      exact ⟨h, Option.some.inj hsome⟩
    · rw [if_neg h] at hsome
      cases hsome
  rw [flattenOps_singleton] at h1
  obtain ⟨hemp, hfold⟩ := h1
  have hemits_nil : emitsE (gather (splice x)) = [] :=
    List.isEmpty_iff.mp hemp
  rw [negE_eq]
  obtain ⟨hf, he⟩ := insert_neg1_content (gather (splice x))
  rw [rebuild_eq, hf, hfold, he, hemits_nil]
  by_cases hq0 : qx = 0
  · rw [if_pos (by rw [hq0]; norm_num)]
    rw [hq0, addNumVal_int 0]
    norm_num
  · rw [if_neg (by simpa using hq0), List.append_nil]
    show addNumVal (ratLit (-qx)) = some (-qx)
    exact addNumVal_ratLit (-qx)

theorem negE_props_none {x : Expr} (hx : IsSimpB x = true)
    (hnone : addNumVal x = none) :
    addNumVal (negE x) = none ∧ negE (negE x) = x := by
  obtain ⟨hreb, hq, hemits⟩ := rebuild_splice_self hx hnone
  obtain ⟨hf, he⟩ := insert_neg1_content (gather (splice x))
  have hkeys2 : ∀ p ∈ insertKey (.integer (-1), 1) (gather (splice x)),
      keyOf p.1 = (p.1, 1) := by
    intro p hp
    rcases mem_insertKey_bases hp with h2 | h2
    · rw [h2]
      exact keyOf_integer (-1)
    · rcases List.mem_map.mp (mem_gather_bases h2) with ⟨y, hy, hky⟩
      rw [← hky]
      exact keyOf_base_irreducible y
  have hsort2 : KSorted (insertKey (.integer (-1), 1) (gather (splice x))) :=
    insertKey_ksorted (gather_ksorted _)
  have hq2 : foldQ (insertKey (.integer (-1), 1) (gather (splice x))) ≠ 0 := by
    rw [hf]
    exact neg_ne_zero.mpr hq
  constructor
  · rw [negE_eq, addNumVal_rebuild hkeys2 hsort2 hq2, he]
    rw [if_neg fun h2 => hemits (List.isEmpty_iff.mp h2)]
  · rw [negE_eq (negE x), negE_eq x]
    obtain ⟨hKf, hKe⟩ := splice_rebuild_content hkeys2 hsort2 hq2
    obtain ⟨hf2, he2⟩ := insert_neg1_content
      (gather (splice (rebuild
        (insertKey (.integer (-1), 1) (gather (splice x))))))
    have hgoal : rebuild (insertKey (.integer (-1), 1)
        (gather (splice (rebuild
          (insertKey (.integer (-1), 1) (gather (splice x))))))) =
        rebuild (gather (splice x)) := by
      refine rebuild_congr ?_ ?_
      · rw [hf2, hKf, hf, neg_neg]
      · rw [he2]
        refine hKe.trans ?_
        rw [he]
    exact hgoal.trans hreb

theorem cancel_pair_self {x : Expr} (hinv : negE (negE x) = x) :
    cancelOpposites [x, negE x] = [] := by
  apply List.eq_nil_iff_forall_not_mem.mpr
  intro v hv
  have hpos : 0 < (cancelOpposites [x, negE x]).count v :=
    List.count_pos_iff.mpr hv
  rw [count_cancelOpposites] at hpos
  by_cases hvx : v = x
  · subst hvx
    rw [if_neg fun h => h hinv] at hpos
    by_cases hsn : negE v = v
    · rw [if_pos hsn, hsn] at hpos
      have hc2 : ([v, v] : List Expr).count v = 2 := by
        simp
      rw [hc2] at hpos
      omega
    · rw [if_neg hsn] at hpos
      have h1 : ([v, negE v] : List Expr).count v = 1 := by
        have hvn : v ≠ negE v := fun h2 => hsn h2.symm
        simp [List.count_cons, hvn]
      have h2 : ([v, negE v] : List Expr).count (negE v) = 1 := by
        have hvn : negE v ≠ v := hsn
        simp [List.count_cons, hvn]
      rw [h1, h2] at hpos
      omega
  by_cases hvnx : v = negE x
  · have hinv2 : negE (negE v) = v := by
      rw [hvnx, hinv]
    rw [if_neg fun h => h hinv2] at hpos
    by_cases hsn : negE v = v
    · have h5 : negE (negE x) = negE x := by
        rw [← hvnx]
        exact hsn
      have h6 : x = negE x := hinv.symm.trans h5
      exact hvx (hvnx.trans h6.symm)
    · rw [if_neg hsn] at hpos
      have hxnx : x ≠ negE x := fun h2 => hvx (hvnx.trans h2.symm)
      have h1 : ([x, negE x] : List Expr).count v = 1 := by
        rw [hvnx]
        simp [List.count_cons, hxnx,
          fun h2 : negE x = x => hxnx h2.symm]
      have h2 : ([x, negE x] : List Expr).count (negE v) = 1 := by
        rw [hvnx, hinv]
        simp [List.count_cons, hxnx]
      rw [h1, h2] at hpos
      omega
  · have h0 : ([x, negE x] : List Expr).count v = 0 := by
      rw [List.count_eq_zero]
      intro hm
      rcases List.mem_cons.mp hm with h2 | h2
      · exact hvx h2
      · rcases List.mem_cons.mp h2 with h3 | h3
        · exact hvnx h3
        · cases h3
    by_cases h1 : negE (negE v) ≠ v
    · rw [if_pos h1, h0] at hpos
      omega
    rw [if_neg h1] at hpos
    by_cases h2 : negE v = v
    · rw [if_pos h2, h0] at hpos
      omega
    · rw [if_neg h2, h0] at hpos
      omega

theorem simplifyAdd_pair_neg {x : Expr} (hx : IsSimpB x = true) :
    simplifyAdd [x, negE x] = .integer 0 := by
  rcases hcase : addNumVal x with _ | qx
  · obtain ⟨hnegnone, hinv⟩ := negE_props_none hx hcase
    rw [simplifyAdd_eq]
    have hfm : List.filterMap addNumVal [x, negE x] = [] := by
      rw [List.filterMap_cons, hcase, List.filterMap_cons, hnegnone]
      rfl
    rw [hfm, show (([] : List ℚ).sum : ℚ) = 0 from rfl, if_pos rfl]
    have hfil : List.filter (fun z => (addNumVal z).isNone) [x, negE x] =
        [x, negE x] := by
      rw [List.filter_eq_self]
      intro w hw
      rcases List.mem_cons.mp hw with rfl | hw2
      · rw [hcase]
        rfl
      · rcases List.mem_cons.mp hw2 with rfl | h3
        · rw [hnegnone]
          rfl
        · cases h3
    rw [hfil, cancel_pair_self hinv]
    rfl
  · have hneg := addNumVal_negE_some hcase
    rw [simplifyAdd_eq]
    have hfm : List.filterMap addNumVal [x, negE x] = [qx, -qx] := by
      rw [List.filterMap_cons, hcase, List.filterMap_cons, hneg]
      rfl
    rw [hfm]
    have hsum : ([qx, -qx] : List ℚ).sum = 0 := by
      simp
    rw [hsum, if_pos rfl]
    have hfil : List.filter (fun z => (addNumVal z).isNone) [x, negE x] =
        [] := by
      rw [List.filter_eq_nil_iff]
      intro w hw
      rcases List.mem_cons.mp hw with rfl | hw2
      · simp [hcase]
      · rcases List.mem_cons.mp hw2 with rfl | h3
        · simp [hneg]
        · cases h3
    rw [hfil, show cancelOpposites [] = [] from rfl]
    rfl

theorem simplify_multiplication_neg (a : Expr) :
    simplify (Expr.multiplication [.integer (-1), a]) =
      negE (simplify a) := by
  rw [show Expr.multiplication [Expr.integer (-1), a] =
    .mul (sortE (flattenOps [Expr.integer (-1), a])) from rfl]
  rw [simplify_mul, simplifyList_eq_map]
  rw [simplifyMul_perm ((sortE_perm _).map simplify)]
  rw [show flattenOps [Expr.integer (-1), a] =
    Expr.integer (-1) :: (splice a ++ []) from rfl, List.append_nil]
  rw [show List.map simplify (Expr.integer (-1) :: splice a) =
    Expr.integer (-1) :: List.map simplify (splice a) from by
      rw [List.map_cons, simplify_int]]
  rw [negE_eq]
  unfold simplifyMul
  rw [show flattenOps (Expr.integer (-1) :: List.map simplify (splice a)) =
    Expr.integer (-1) :: flattenOps (List.map simplify (splice a))
    from rfl]
  rw [show gather (Expr.integer (-1) ::
      flattenOps (List.map simplify (splice a))) =
    insertKey (.integer (-1), 1)
      (gather (flattenOps (List.map simplify (splice a)))) from by
      simp [gather, keyOf_integer]]
  by_cases hm : ∃ g, a = .mul g
  · rcases hm with ⟨g, rfl⟩
    rw [show splice (.mul g) = g from rfl]
    rw [show simplify (.mul g) = simplifyMul (List.map simplify g) from by
      rw [simplify_mul, simplifyList_eq_map]]
    rw [show simplifyMul (List.map simplify g) =
      rebuild (gather (flattenOps (List.map simplify g))) from rfl]
    have hkeys0 := gather_hkeys (flattenOps (List.map simplify g))
    have hsort0 := gather_ksorted (flattenOps (List.map simplify g))
    obtain ⟨hf1, he1⟩ :=
      insert_neg1_content (gather (flattenOps (List.map simplify g)))
    by_cases hq0 : foldQ (gather (flattenOps (List.map simplify g))) = 0
    · have hreb0 : rebuild (gather (flattenOps (List.map simplify g))) =
          .integer 0 := by
        rw [rebuild_eq, if_pos hq0]
      rw [hreb0]
      rw [show splice (Expr.integer 0) = [Expr.integer 0] from rfl]
      rw [show gather [Expr.integer 0] = [(Expr.integer 0, 1)] from rfl]
      obtain ⟨hf2, he2⟩ := insert_neg1_content [(Expr.integer 0, (1 : Int))]
      rw [rebuild_eq, rebuild_eq, hf1, hq0, hf2]
      rw [show foldQ [(Expr.integer 0, (1 : Int))] = 0 from by
        rw [foldQ_cons]
        simp [groupFold]]
      rw [if_pos (by norm_num), if_pos (by norm_num)]
    · obtain ⟨hKf, hKe⟩ := splice_rebuild_content hkeys0 hsort0 hq0
      obtain ⟨hf2, he2⟩ := insert_neg1_content
        (gather (splice (rebuild
          (gather (flattenOps (List.map simplify g))))))
      refine rebuild_congr ?_ ?_
      · rw [hf1, hf2, hKf]
      · rw [he1, he2]
        exact hKe.symm
  · have hnm : ∀ g, a ≠ .mul g := fun g h2 => hm ⟨g, h2⟩
    rw [splice_of_not_mul hnm]
    rw [show List.map simplify [a] = [simplify a] from rfl]
    rw [show flattenOps [simplify a] = splice (simplify a) ++ []
      from rfl, List.append_nil]

/-- C3: for every expression `a`, simplifying the desugared subtraction
`a − a` collapses the opposite pair to the additive identity, the literal
integer 0 (spec §4.3/§4.4, simplifiable_test.rs `simplifies_opposite_sum`). -/
theorem C3_simplify_self_subtraction_is_zero (a : Expr) :
    simplify (Expr.subtraction a a) = .integer 0 := by
  rw [show Expr.subtraction a a =
    .add (sortE [a, Expr.multiplication [.integer (-1), a]]) from rfl]
  rw [simplify_add, simplifyList_eq_map]
  rw [simplifyAdd_perm ((sortE_perm _).map simplify)]
  rw [show List.map simplify [a, Expr.multiplication [.integer (-1), a]] =
    [simplify a, simplify (Expr.multiplication [.integer (-1), a])]
    from rfl]
  rw [simplify_multiplication_neg]
  exact simplifyAdd_pair_neg (isSimp_simplify a)

end Ncas
